import Mathlib

/-!
# Admin dashboard: aggregation and filter layer

A shallow embedding of the data-reshaping functions of
`src/components/ImprovedGraphs.jsx` (`groupByCategoryAndMonth`,
`prepareBarChartData`, `prepareLineChartData`, `preparePieChartData`) and of
`applyFilters` in `src/components/home.jsx`, together with the part of the
JavaScript object semantics those functions rely on (plain objects used as
dictionaries: own properties in creation order, array-index keys enumerated
first, properties inherited from `Object.prototype`, the `__proto__` setter).

Numbers are IEEE-754 doubles: a finite number is held as its integer count of
units `2^-1074`, and addition rounds to the nearest double.
-/

set_option maxRecDepth 100000
set_option exponentiation.threshold 4096

namespace Dashboard

/-! ## Plain JavaScript objects used as dictionaries -/

/-- The own enumerable string-keyed properties of an ordinary object, in the
order in which they were created. -/
abbrev Obj (V : Type) := List (String × V)

/-- Value of the own property `k`, if the object has one. -/
def Obj.getOwn {V : Type} (o : Obj V) (k : String) : Option V :=
  (o.find? (fun e => e.1 == k)).map Prod.snd

/-- Define-or-overwrite of the own data property `k`: an existing property keeps
its place in the creation order, a new one is created last. -/
def Obj.put {V : Type} (o : Obj V) (k : String) (v : V) : Obj V :=
  if (o.getOwn k).isSome then o.map (fun e => if e.1 == k then (e.1, v) else e)
  else o ++ [(k, v)]

/-- In-place mutation of the value held by the own property `k`
(as in `acc[key].totalSales += x`, where `acc[key]` is an own property). -/
def Obj.modify {V : Type} (o : Obj V) (k : String) (f : V → V) : Obj V :=
  o.map (fun e => if e.1 == k then (e.1, f e.2) else e)

/-- Names of the properties every plain object inherits from
`Object.prototype` (ECMAScript, Annex B included). Reading one of them from an
object that has no own property of that name yields a function (for
`__proto__`, the prototype object): a truthy, non-numeric value. -/
def inheritedNames : List String :=
  ["constructor", "__defineGetter__", "__defineSetter__", "hasOwnProperty",
   "__lookupGetter__", "__lookupSetter__", "isPrototypeOf", "propertyIsEnumerable",
   "toString", "valueOf", "__proto__", "toLocaleString"]

/-- Assignment `o[k] = v` of a primitive value `v`. For `k = "__proto__"` the
assignment reaches the inherited setter, which ignores a primitive: no property
is created. Every other name becomes (or stays) an own data property. -/
def Obj.assign {V : Type} (o : Obj V) (k : String) (v : V) : Obj V :=
  if k == "__proto__" then o else o.put k v

/-- Numeric value of a string of decimal digits. -/
def digitsValue (cs : List Char) : Nat :=
  cs.foldl (fun a d => 10 * a + (d.toNat - 48)) 0

/-- The array index a property name denotes, if any: a canonical numeric
string (digits only, no leading zero) below `2^32 - 1`. -/
def arrayIndex? (k : String) : Option Nat :=
  match k.data with
  | [] => none
  | c :: cs =>
    if (c :: cs).all Char.isDigit && (c != '0' || cs.isEmpty)
        && decide (digitsValue (c :: cs) < 4294967295) then
      some (digitsValue (c :: cs))
    else none

/-- Whether a property name is an array index. -/
def isArrayIndex (k : String) : Bool := (arrayIndex? k).isSome

/-- Order of two entries by the array index of their names. -/
def indexLE {V : Type} (a b : String × V) : Prop :=
  (arrayIndex? a.1).getD 0 ≤ (arrayIndex? b.1).getD 0

instance {V : Type} : DecidableRel (indexLE : String × V → String × V → Prop) :=
  fun a b => inferInstanceAs (Decidable ((arrayIndex? a.1).getD 0 ≤ (arrayIndex? b.1).getD 0))

instance indexLE_total {V : Type} : IsTotal (String × V) indexLE :=
  ⟨fun _ _ => Nat.le_total _ _⟩

instance indexLE_trans {V : Type} : IsTrans (String × V) indexLE :=
  ⟨fun _ _ _ h1 h2 => Nat.le_trans h1 h2⟩

/-- Own properties in enumeration order (`OrdinaryOwnPropertyKeys`): array
indices in ascending numeric order first, then the other names in creation
order. This is the order of `Object.keys`, `Object.values` and object spread. -/
def Obj.ownEntries {V : Type} (o : Obj V) : Obj V :=
  (o.filter (fun e => isArrayIndex e.1)).insertionSort indexLE
    ++ o.filter (fun e => !isArrayIndex e.1)

/-- The model of `Object.keys(o)`. -/
def Object.keys {V : Type} (o : Obj V) : List String := o.ownEntries.map Prod.fst

/-- The model of `Object.values(o)`. -/
def Object.values {V : Type} (o : Obj V) : List V := o.ownEntries.map Prod.snd

/-! ## Host functions -/

/-- Whether a month label is ordinary text: no hyphen, not an array index, not
the name of an inherited property. -/
def plainLabel (l : String) : Bool :=
  !l.data.contains '-' && !isArrayIndex l && !inheritedNames.contains l

/-- The JavaScript runtime functions the dashboard calls.
`toLowerCase` is `String.prototype.toLowerCase`. `monthYear d` is the text of
`new Date(d).toLocaleString('default', { month: 'long', year: 'numeric' })`
when `d` (the `DateOfSale` field, `none` when absent) parses to a date, and
`none` when `new Date(d)` is an invalid date; both depend on the host's date
parser, locale and time zone. Month labels are ordinary text. -/
structure Host where
  toLowerCase : String → String
  monthYear : Option String → Option String
  monthYear_plain : ∀ d l, monthYear d = some l → plainLabel l = true

/-- The text `toLocaleString` gives for an invalid date. -/
def invalidDate : String := "Invalid Date"

/-- Model of `new Date(d).toLocaleString('default', ...)`. -/
def Host.monthLabel (H : Host) (d : Option String) : String :=
  (H.monthYear d).getD invalidDate

/-- Model of `s.includes(t)`: `t` occurs in `s` as a contiguous run. -/
def includes (s t : String) : Bool :=
  s.data.tails.any (fun u => t.data.isPrefixOf u)

/-! ## Numbers -/

/-- A JavaScript number (IEEE-754 binary64). Every finite double is an integer
multiple of `2^-1074`, with a significand of at most 53 bits and a magnitude
below `2^1024`: `finite u` stands for the number `u * 2^-1074`. The two zeros
`+0` and `-0`, which no function of the dashboard tells apart, are both
`finite 0`. -/
inductive Num where
  | finite (units : Int)
  | posInf
  | negInf
  | nan
deriving DecidableEq, Repr

/-- Position of the leading bit of `n` (`0` for `n < 2`), by halving; the first
argument bounds the number of halvings. -/
def leadingBit : Nat → Nat → Nat
  | 0, _ => 0
  | fuel + 1, n => if n < 2 then 0 else leadingBit fuel (n / 2) + 1

/-- Rounding of an exact value, given in units of `2^-1074`, to the nearest
double: the value is cut to 53 significant bits, a tie goes to the even
significand, and a rounded magnitude of `2^1024` or more is an infinity. -/
def roundDouble (x : Int) : Num :=
  let n := x.natAbs
  if n < 2 ^ 53 then Num.finite x
  else
    let e := leadingBit n n - 52
    let q := n / 2 ^ e
    let r := n % 2 ^ e
    let q' := if 2 * r < 2 ^ e then q
      else if 2 ^ e < 2 * r then q + 1
      else if q % 2 = 0 then q else q + 1
    let m := q' * 2 ^ e
    if m < 2 ^ 2098 then Num.finite (if x < 0 then -(m : Int) else (m : Int))
    else if x < 0 then Num.negInf else Num.posInf

/-- The sum `a + b` of two numbers. -/
def jsAdd : Num → Num → Num
  | Num.finite a, Num.finite b => roundDouble (a + b)
  | Num.nan, _ => Num.nan
  | _, Num.nan => Num.nan
  | Num.posInf, Num.negInf => Num.nan
  | Num.negInf, Num.posInf => Num.nan
  | Num.posInf, _ => Num.posInf
  | _, Num.posInf => Num.posInf
  | Num.negInf, _ => Num.negInf
  | _, Num.negInf => Num.negInf

/-- The number an integer denotes: the nearest double. -/
def Num.ofInt (n : Int) : Num := roundDouble (n * ((2 ^ 1074 : Nat) : Int))

instance (n : Nat) : OfNat Num n := ⟨Num.ofInt n⟩

/-- Whether a number is finite. -/
def Num.isFinite : Num → Bool
  | Num.finite _ => true
  | _ => false

/-- The count of units `2^-1074` of a finite number (`0` for the others). -/
def Num.units : Num → Int
  | Num.finite u => u
  | _ => 0

/-! ## Data model -/

/-- A product record as delivered by the product endpoint. A field is `none`
when the record does not carry it. `Category` is the field the table and the
filter read, `category` the field the chart functions read. `Sold` is `none`
when the field is absent or not a boolean. `Price` is a number. -/
structure Product where
  Title : Option String
  Price : Num
  Category : Option String
  category : Option String
  Sold : Option Bool
  DateOfSale : Option String
deriving DecidableEq, Repr

/-- The accumulator `{ category, month, totalSales, totalItems }`.
`totalItems` counts elements of an array, so it stays below `2^32`, where
`+= 1` is exact: it is held as a natural number. -/
structure Group where
  category : String
  month : String
  totalSales : Num
  totalItems : Nat
deriving DecidableEq, Repr

/-- The value of `x || dflt` for an optional text `x`: absent and empty text
are falsy. -/
def orDefault (x : Option String) (dflt : String) : String :=
  match x with
  | some s => if s == "" then dflt else s
  | none => dflt

/-! ## `ImprovedGraphs.jsx` -/

/-- The category `groupByCategoryAndMonth` files a product under. -/
def groupCategory (product : Product) : String :=
  orDefault product.category "Uncategorized"

/-- The key `category-month` of a product. -/
def groupKey (H : Host) (product : Product) : String :=
  groupCategory product ++ "-" ++ H.monthLabel product.DateOfSale

/-- One step of the reducer of `groupByCategoryAndMonth`. The key contains a
hyphen, so `acc[key]` never reaches an inherited property. -/
def groupStep (H : Host) (acc : Obj Group) (product : Product) : Obj Group :=
  let category := groupCategory product
  let month := H.monthLabel product.DateOfSale
  let key := category ++ "-" ++ month
  let acc := if (acc.getOwn key).isNone then
      acc.put key
        { category := category, month := month, totalSales := Num.finite 0, totalItems := 0 }
    else acc
  let acc := acc.modify key
    (fun g => { g with totalSales := jsAdd g.totalSales product.Price })
  acc.modify key (fun g => { g with totalItems := g.totalItems + 1 })

/-- Model of `groupByCategoryAndMonth`. -/
def groupByCategoryAndMonth (H : Host) (products : List Product) : Obj Group :=
  products.foldl (groupStep H) []

/-- A value of a chart row: the month label or a number. -/
inductive Cell where
  | str (s : String)
  | num (x : Num)
deriving DecidableEq, Repr

/-- The object literal `{ name: month, ...inner }`: `name` is defined first,
then the own properties of `inner` are copied in enumeration order. -/
def spreadRow (month : String) (inner : Obj Num) : Obj Cell :=
  inner.ownEntries.foldl (fun row e => row.put e.1 (Cell.num e.2)) [("name", Cell.str month)]

/-- One step of the `forEach` of `prepareBarChartData`. The month label is
ordinary text, so `monthlyData[month]` is an own-property lookup. -/
def barStep (monthlyData : Obj (Obj Num)) (item : Group) : Obj (Obj Num) :=
  let monthlyData := if (monthlyData.getOwn item.month).isNone then
      monthlyData.put item.month []
    else monthlyData
  monthlyData.modify item.month (fun inner => inner.assign item.category item.totalSales)

/-- Model of `prepareBarChartData`. -/
def prepareBarChartData (groupedData : Obj Group) : List (Obj Cell) :=
  let monthlyData := (Object.values groupedData).foldl barStep []
  (Object.keys monthlyData).map
    (fun month => spreadRow month ((monthlyData.getOwn month).getD []))

/-- One step of the `forEach` of `prepareLineChartData`; the count
`totalItems` is stored as the number it is. -/
def lineStep (monthlyData : Obj (Obj Num)) (item : Group) : Obj (Obj Num) :=
  let monthlyData := if (monthlyData.getOwn item.month).isNone then
      monthlyData.put item.month []
    else monthlyData
  monthlyData.modify item.month
    (fun inner => inner.assign item.category (Num.ofInt item.totalItems))

/-- Model of `prepareLineChartData`. -/
def prepareLineChartData (groupedData : Obj Group) : List (Obj Cell) :=
  let monthlyData := (Object.values groupedData).foldl lineStep []
  (Object.keys monthlyData).map
    (fun month => spreadRow month ((monthlyData.getOwn month).getD []))

/-- A value of the category tally: a count, or the text that results from
adding `1` to an inherited function or object. -/
inductive Tally where
  | count (n : Nat)
  | text
deriving DecidableEq, Repr

/-- The category `preparePieChartData` counts a product under. -/
def pieCategory (product : Product) : String :=
  orDefault product.category "Unknown Category"

/-- The value of `(acc[category] || 0) + 1`. -/
def tallyNext (acc : Obj Tally) (category : String) : Tally :=
  match acc.getOwn category with
  | some (Tally.count n) => Tally.count (n + 1)
  | some Tally.text => Tally.text
  | none => if inheritedNames.contains category then Tally.text else Tally.count 1

/-- One step of the reducer of `preparePieChartData`. -/
def pieStep (acc : Obj Tally) (product : Product) : Obj Tally :=
  let category := pieCategory product
  acc.assign category (tallyNext acc category)

/-- Model of `preparePieChartData`: the rows `{ name, value }` as pairs. -/
def preparePieChartData (products : List Product) : List (String × Tally) :=
  let categoryCounts := products.foldl pieStep []
  (Object.keys categoryCounts).map
    (fun category => (category, (categoryCounts.getOwn category).getD (Tally.count 0)))

/-! ## `home.jsx` -/

/-- The search step of `applyFilters`:
`filtered.filter(p => p.Title.toLowerCase().includes(searchText.toLowerCase()))`.
Calling `toLowerCase` on an absent `Title` throws: the result is `none`. -/
def filterByTitle (H : Host) (searchText : String) : List Product → Option (List Product)
  | [] => some []
  | product :: rest =>
    match product.Title with
    | none => none
    | some title =>
      match filterByTitle H searchText rest with
      | none => none
      | some kept =>
        if includes (H.toLowerCase title) (H.toLowerCase searchText) then some (product :: kept)
        else some kept

/-- Model of `applyFilters`: the list handed to `setFilteredProducts`, or `none`
when the search step throws. `searchText` and `selectedCategory` are texts
(empty when not supplied), `soldStatus` is `null` (`none`) or a boolean. -/
def applyFilters (H : Host) (products : List Product) (searchText selectedCategory : String)
    (soldStatus : Option Bool) : Option (List Product) :=
  let filtered : Option (List Product) := some products
  let filtered := if searchText != "" then filtered.bind (filterByTitle H searchText) else filtered
  let filtered := if selectedCategory != "" then
      filtered.map (fun l => l.filter (fun product => product.Category == some selectedCategory))
    else filtered
  match soldStatus with
  | some s => filtered.map (fun l => l.filter (fun product => product.Sold == some s))
  | none => filtered

/-! ## A sample host -/

/-- English long month names. -/
def monthNames : List String :=
  ["January", "February", "March", "April", "May", "June", "July", "August",
   "September", "October", "November", "December"]

/-- Number of days of month `m` (1 to 12) of year `y`. -/
def daysInMonth (y m : Nat) : Nat :=
  if m = 2 then (if (y % 4 = 0 ∧ y % 100 ≠ 0) ∨ y % 400 = 0 then 29 else 28)
  else if m = 4 ∨ m = 6 ∨ m = 9 ∨ m = 11 then 30 else 31

/-- Whether a text is empty or an ISO time `THH:mm`, `THH:mm:ss` or
`THH:mm:ss.s...` (hours 00 to 23), optionally followed by `Z`. -/
def isoTimeSuffix : List Char → Bool
  | [] => true
  | 'T' :: h1 :: h2 :: ':' :: n1 :: n2 :: rest =>
    [h1, h2, n1, n2].all Char.isDigit && decide (digitsValue [h1, h2] < 24)
      && decide (digitsValue [n1, n2] < 60)
      && (match rest with
          | [] => true
          | ['Z'] => true
          | ':' :: s1 :: s2 :: rest' =>
            [s1, s2].all Char.isDigit && decide (digitsValue [s1, s2] < 60)
              && (match rest' with
                  | [] => true
                  | ['Z'] => true
                  | '.' :: f :: fs =>
                    f.isDigit && ((f :: fs).all Char.isDigit
                      || ((f :: fs).dropLast.all Char.isDigit && (f :: fs).getLast? == some 'Z'))
                  | _ => false)
          | _ => false)
  | _ => false

/-- Month label, in an English locale and the UTC zone, of an ISO text
`YYYY-MM-DD` (year from 1000 on, month 01 to 12, day 01 to 31), alone or
followed by a time in UTC. As in V8, a day past the end of the month counts
into the next month. No other text is understood by this function. -/
def isoMonthYear (s : String) : Option String :=
  match s.data with
  | y1 :: y2 :: y3 :: y4 :: '-' :: m1 :: m2 :: '-' :: d1 :: d2 :: rest =>
    if [y1, y2, y3, y4, m1, m2, d1, d2].all Char.isDigit && y1 != '0'
        && isoTimeSuffix rest then
      let y := digitsValue [y1, y2, y3, y4]
      let m := digitsValue [m1, m2]
      let d := digitsValue [d1, d2]
      if 1 ≤ m ∧ m ≤ 12 ∧ 1 ≤ d ∧ d ≤ 31 then
        (monthNames.get? (if d ≤ daysInMonth y m then m - 1 else m)).map
          (fun name => name ++ " " ++ String.mk [y1, y2, y3, y4])
      else none
    else none
  | _ => none

/-- A host for the concrete evaluations: English month labels in the UTC zone
for the ISO texts `isoMonthYear` understands (every other text is taken as an
invalid date, also where a browser would parse it), and a case mapping that
acts on the letters `A` to `Z` only. -/
def sampleHost : Host where
  toLowerCase := fun s => String.mk (s.data.map Char.toLower)
  monthYear := fun d => d.bind isoMonthYear
  monthYear_plain := by
    intro d l h
    obtain ⟨s, -, h⟩ := Option.bind_eq_some.1 h
    have hshape : ∃ name ∈ monthNames, ∃ y1 y2 y3 y4 : Char,
        (y1.isDigit ∧ y2.isDigit ∧ y3.isDigit ∧ y4.isDigit) ∧
        l = name ++ " " ++ String.mk [y1, y2, y3, y4] := by
      unfold isoMonthYear at h
      split at h
      · rename_i y1 y2 y3 y4 m1 m2 d1 d2 rest _
        split at h
        · rename_i hd
          simp only [] at h
          split at h
          · rw [Option.map_eq_some'] at h
            obtain ⟨name, hn, rfl⟩ := h
            refine ⟨name, List.get?_mem hn, y1, y2, y3, y4, ?_, rfl⟩
            simp at hd
            tauto
          · cases h
        · cases h
      · cases h
    obtain ⟨name, hn, y1, y2, y3, y4, ⟨h1, h2, h3, h4⟩, rfl⟩ := hshape
    have hdig : ∀ c : Char, c.isDigit = true → c ≠ '-' := by
      rintro c hc rfl
      revert hc
      decide
    have hsp : ' ' ∈ (name ++ " " ++ String.mk [y1, y2, y3, y4]).data := by
      simp [String.data_append]
    have hidx : isArrayIndex (name ++ " " ++ String.mk [y1, y2, y3, y4]) = false := by
      by_contra hc
      have hsome : isArrayIndex (name ++ " " ++ String.mk [y1, y2, y3, y4]) = true := by
        simpa using hc
      unfold isArrayIndex arrayIndex? at hsome
      split at hsome
      · simp at hsome
      · rename_i c cs hk
        split at hsome
        · rename_i hall
          simp only [Bool.and_eq_true, List.all_eq_true] at hall
          have := hall.1.1 ' ' (hk ▸ hsp)
          revert this
          decide
        · simp at hsome
    have hinh : ∀ n ∈ inheritedNames, ' ' ∉ n.data := by decide
    have hni : inheritedNames.contains (name ++ " " ++ String.mk [y1, y2, y3, y4]) = false := by
      rw [Bool.eq_false_iff]
      intro hc
      exact hinh _ (List.elem_iff.1 hc) hsp
    have hnm : ∀ n ∈ monthNames, '-' ∉ n.data := by decide
    have hmem : '-' ∉ (name ++ " " ++ String.mk [y1, y2, y3, y4]).data := by
      rw [String.data_append, String.data_append, List.mem_append, List.mem_append]
      rintro ((hc | hc) | hc)
      · exact hnm _ hn hc
      · revert hc
        decide
      · simp only [List.mem_cons, List.mem_nil_iff, or_false] at hc
        rcases hc with hc | hc | hc | hc
        · exact hdig _ h1 hc.symm
        · exact hdig _ h2 hc.symm
        · exact hdig _ h3 hc.symm
        · exact hdig _ h4 hc.symm
    have hhy : (name ++ " " ++ String.mk [y1, y2, y3, y4]).data.contains '-' = false := by
      rw [Bool.eq_false_iff]
      intro hc
      exact hmem (List.elem_iff.1 hc)
    unfold plainLabel
    rw [hhy, hidx, hni]
    rfl

/-- The three records of the specification's example, with the fields
`Category`, `Price`, `Sold`, `DateOfSale` as written there. -/
def exampleProducts : List Product :=
  [ { Title := none, Price := 10, Category := some "Toys", category := none,
      Sold := some false, DateOfSale := some "2024-01-05" },
    { Title := none, Price := 20, Category := some "Toys", category := none,
      Sold := some true, DateOfSale := some "2024-01-20" },
    { Title := none, Price := 15, Category := some "Books", category := none,
      Sold := some false, DateOfSale := some "2024-02-10" } ]

/-! ## The components of `ImprovedGraphs.jsx` -/

/-- The series elements a chart derives from `Object.keys(rows[0])`: every key
other than `name` becomes a series with that data key and the colour index
`idx % COLORS.length` (five colours), `name` becomes `null`. When `rows[0]` is
`undefined`, `Object.keys` throws: the result is `none`. -/
def seriesOf (rows : List (Obj Cell)) : Option (List (Option (String × Nat))) :=
  match rows[0]? with
  | none => none
  | some row =>
    some ((Object.keys row).enum.map
      (fun ik => if ik.2 != "name" then some (ik.2, ik.1 % 5) else none))

/-- Model of the render of `ProductGraphs`: the series of the bar chart and of
the line chart, or `none` when a key derivation throws. -/
def ProductGraphs (H : Host) (products : List Product) :
    Option (List (Option (String × Nat)) × List (Option (String × Nat))) :=
  let groupedData := groupByCategoryAndMonth H products
  let salesData := prepareBarChartData groupedData
  let itemsData := prepareLineChartData groupedData
  match seriesOf salesData, seriesOf itemsData with
  | some bars, some lines => some (bars, lines)
  | _, _ => none

/-- The state of the component `FetchProducts`. -/
structure FetchState where
  products : List Product
  loading : Bool
deriving DecidableEq, Repr

/-- The state `FetchProducts` is mounted with: `useState([])`, `useState(true)`. -/
def FetchState.initial : FetchState := { products := [], loading := true }

/-- How the awaited request and the parse of its body end. -/
inductive FetchOutcome where
  | resolved (data : List Product)
  | rejected

/-- Model of the effect `fetchProducts` of `FetchProducts`: on success the data
is stored and loading ends, on failure only loading ends. -/
def fetchProducts (s : FetchState) : FetchOutcome → FetchState
  | FetchOutcome.resolved data => { products := data, loading := false }
  | FetchOutcome.rejected => { s with loading := false }

/-! ## Notions used to state the properties -/

/-- The property names of an object, in creation order. -/
def Obj.names {V : Type} (o : Obj V) : List String := o.map Prod.fst

/-- The distinct elements of a list, in the order of their first occurrence. -/
def firstOccurrences : List String → List String
  | [] => []
  | a :: l => a :: (firstOccurrences l).filter (fun b => b != a)


/-- The records of a list that `groupByCategoryAndMonth` files under key `k`. -/
def recordsOf (H : Host) (k : String) (products : List Product) : List Product :=
  products.filter (fun p => groupKey H p == k)

/-- The group a key stands for, stated from the records filed under it: the
category and month of the first of them, their prices added one after the
other starting from `0`, and their number; no group when no record has the
key. -/
def groupOf (H : Host) (k : String) (products : List Product) : Option Group :=
  match recordsOf H k products with
  | [] => none
  | p :: rest =>
    some { category := groupCategory p, month := H.monthLabel p.DateOfSale,
           totalSales := (p :: rest).foldl (fun acc q => jsAdd acc q.Price) (Num.finite 0),
           totalItems := (p :: rest).length }

/-- Whether the sale date of a record parses to a date on the host. -/
def parseable (H : Host) (p : Product) : Bool := (H.monthYear p.DateOfSale).isSome

/-- A record whose sale date is not a date. -/
def badDateProducts : List Product :=
  [ { Title := some "Kite", Price := 5, Category := some "Toys", category := some "Toys",
      Sold := some false, DateOfSale := some "not a date" } ]

/-- The criteria of the filter, as the specification words them: a record
satisfies every supplied criterion (a non-empty search text contained in the
title regardless of case, a non-empty category equal to `Category`, a non-null
sold status equal to `Sold`). -/
def satisfiesCriteria (H : Host) (searchText selectedCategory : String)
    (soldStatus : Option Bool) (p : Product) : Bool :=
  (searchText == "" ||
      match p.Title with
      | some title => includes (H.toLowerCase title) (H.toLowerCase searchText)
      | none => false)
    && (selectedCategory == "" || p.Category == some selectedCategory)
    && (soldStatus == none || p.Sold == soldStatus)

/-- Two records for the sample evaluations. -/
def kite : Product :=
  { Title := some "Red Kite", Price := 12, Category := some "Toys", category := some "Toys",
    Sold := some true, DateOfSale := some "2024-03-09" }

/-- A second record for the sample evaluations. -/
def atlas : Product :=
  { Title := some "World Atlas", Price := 30, Category := some "Books", category := some "Books",
    Sold := some false, DateOfSale := some "2024-03-15" }

/-- The object `categoryCounts` that the reducer of `preparePieChartData`
builds. -/
def categoryCounts (products : List Product) : Obj Tally := products.foldl pieStep []

/-- The tally a category name stands for, stated from the records counted
under it: nothing for `__proto__` or when no record has the category, a text
for the other inherited names, the number of records otherwise. -/
def tallyOf (c : String) (products : List Product) : Option Tally :=
  if c = "__proto__" then none
  else
    match (products.filter (fun p => pieCategory p == c)).length with
    | 0 => none
    | n + 1 => if inheritedNames.contains c then some Tally.text else some (Tally.count (n + 1))

/-- The number a tally value stands for (a text stands for none). -/
def Tally.value : Tally → Nat
  | Tally.count n => n
  | Tally.text => 0

/-- A record whose category is the text `__proto__`. -/
def protoProducts : List Product :=
  [ { Title := some "Mirror", Price := 8, Category := some "__proto__",
      category := some "__proto__", Sold := some false, DateOfSale := some "2024-03-09" } ]

/-- Two records whose categories first occur in the order `b`, `1`. -/
def indexProducts : List Product :=
  [ { Title := some "Bolt", Price := 2, Category := some "b", category := some "b",
      Sold := some false, DateOfSale := some "2024-03-09" },
    { Title := some "Nut", Price := 1, Category := some "1", category := some "1",
      Sold := some true, DateOfSale := some "2024-03-10" } ]

/-- The `forEach` step the two pivots share, for a projection `f` of the
group (`totalSales` for the bar chart, `totalItems` for the line chart). -/
def pivotStep {W : Type} (f : Group → W) (monthlyData : Obj (Obj W)) (item : Group) :
    Obj (Obj W) :=
  let monthlyData := if (monthlyData.getOwn item.month).isNone then
      monthlyData.put item.month []
    else monthlyData
  monthlyData.modify item.month (fun inner => inner.assign item.category (f item))

/-- The object literal `{ name: month, ...inner }` for any type of values. -/
def spreadWith {W C : Type} (lab : String → C) (num : W → C) (month : String)
    (inner : Obj W) : Obj C :=
  inner.ownEntries.foldl (fun row e => row.put e.1 (num e.2)) [("name", lab month)]

/-- The object `monthlyData` built from a list of groups. -/
def monthlyDataOf {W : Type} (f : Group → W) (items : List Group) : Obj (Obj W) :=
  items.foldl (pivotStep f) []

/-- The rows the two pivots share. -/
def pivotRows {W C : Type} (f : Group → W) (lab : String → C) (num : W → C)
    (groupedData : Obj Group) : List (Obj C) :=
  (Object.keys (monthlyDataOf f (Object.values groupedData))).map
    (fun month => spreadWith lab num month
      (((monthlyDataOf f (Object.values groupedData)).getOwn month).getD []))

/-- The same object with every value replaced by its image. -/
def Obj.mapValues {V W : Type} (φ : V → W) (o : Obj V) : Obj W :=
  o.map (fun e => (e.1, φ e.2))

/-- A cell of a row that keeps the whole group: projected to the sales cell. -/
def salesCell : String ⊕ Group → Cell
  | Sum.inl s => Cell.str s
  | Sum.inr g => Cell.num g.totalSales

/-- A cell of a row that keeps the whole group: projected to the items cell. -/
def itemsCell : String ⊕ Group → Cell
  | Sum.inl s => Cell.str s
  | Sum.inr g => Cell.num (Num.ofInt g.totalItems)

/-- The cell a month and a category stand for, stated from the groups: the
projection of the last group of that month and category; nothing when there is
none, and nothing for the category `__proto__`. -/
def cellOf {W : Type} (f : Group → W) (m c : String) (items : List Group) : Option W :=
  if c = "__proto__" then none
  else ((items.filter (fun g => g.month == m && g.category == c)).getLast?).map f

/-- A record whose category is the text `name`. -/
def nameProducts : List Product :=
  [ { Title := some "Badge", Price := 7, Category := some "name", category := some "name",
      Sold := some false, DateOfSale := some "2024-03-09" } ]

/-- The three records of the specification's example when the payload spells
the category field `category`, the spelling the chart functions read. -/
def exampleProductsLowercase : List Product :=
  exampleProducts.map (fun p => { p with category := p.Category })

/-- A record that carries no category, for the sample evaluations. -/
def plainBox : Product :=
  { Title := some "Plain Box", Price := 4, Category := none, category := none,
    Sold := some false, DateOfSale := some "2024-03-20" }

/-- Prices on which every addition of the reducer is exact: all prices are
finite multiples of one power of two, `2^k` units (that is `2^(k - 1074)`),
and their absolute values sum to at most `2^53` times that power, below
`2^1024`. Integer prices whose absolute values sum to at most `2^53` are the
case `k = 1074`. -/
def ExactPrices (k : Nat) (products : List Product) : Prop :=
  k ≤ 2044
    ∧ (∀ p ∈ products,
        p.Price.isFinite = true ∧ p.Price.units % ((2 ^ k : Nat) : Int) = 0)
    ∧ (products.map (fun p => p.Price.units.natAbs)).sum ≤ 2 ^ (53 + k)

instance (k : Nat) (products : List Product) : Decidable (ExactPrices k products) := by
  unfold ExactPrices
  exact inferInstance

/-- The number `0.1`: the double nearest to one tenth. -/
def Num.tenth : Num := Num.finite ((3602879701896397 * 2 ^ 1019 : Nat) : Int)

/-- The number `0.2`: the double nearest to one fifth. -/
def Num.fifth : Num := Num.finite ((3602879701896397 * 2 ^ 1020 : Nat) : Int)

/-- Two records of one category and month with the prices `0.1` and `0.2`. -/
def decimalProducts : List Product :=
  [ { Title := some "Pin", Price := Num.tenth, Category := some "Toys",
      category := some "Toys", Sold := some false, DateOfSale := some "2024-03-09" },
    { Title := some "Clip", Price := Num.fifth, Category := some "Toys",
      category := some "Toys", Sold := some true, DateOfSale := some "2024-03-10" } ]

/-- A record of category `Toys` in March 2024 with the given price. -/
def toyOf (price : Num) : Product :=
  { Title := some "Toy", Price := price, Category := some "Toys", category := some "Toys",
    Sold := some false, DateOfSale := some "2024-03-09" }

/-- Three records of one group with the integer prices `2^53`, `1`, `1`. -/
def largeProducts : List Product :=
  [toyOf (Num.ofInt ((2 ^ 53 : Nat) : Int)), toyOf 1, toyOf 1]

/-- Two records of the category `constructor`, the name of an inherited
property. -/
def constructorProducts : List Product :=
  [ { Title := some "Crane", Price := 9, Category := some "constructor",
      category := some "constructor", Sold := some false, DateOfSale := some "2024-03-09" },
    { Title := some "Digger", Price := 6, Category := some "constructor",
      category := some "constructor", Sold := some true, DateOfSale := some "2024-03-11" } ]

/-- A line row mirrors a bar row, as the specification words it: both hold the
same month label under `name`, they have the same names entry by entry, and
every entry other than `name` holds in the bar row the `totalSales` and in the
line row the `totalItems` of one group of that month and of the category the
entry is named after. -/
def RowsMirror (groups : List Group) (bar line : Obj Cell) : Prop :=
  ∃ month, Obj.getOwn bar "name" = some (Cell.str month)
    ∧ Obj.getOwn line "name" = some (Cell.str month)
    ∧ List.Forall₂
        (fun (eb el : String × Cell) => eb.1 = el.1 ∧
          ((eb.1 = "name" ∧ eb.2 = Cell.str month ∧ el.2 = Cell.str month) ∨
            (eb.1 ≠ "name" ∧ ∃ g ∈ groups, g.month = month ∧ g.category = eb.1 ∧
              eb.2 = Cell.num g.totalSales ∧ el.2 = Cell.num (Num.ofInt g.totalItems))))
        bar line

/-! ## Numbers: when addition is exact -/

theorem leadingBit_le (fuel n : Nat) (hfuel : n ≤ fuel) (hn : n ≠ 0) :
    2 ^ leadingBit fuel n ≤ n := by
  induction fuel generalizing n with
  | zero => omega
  | succ fuel ih =>
    unfold leadingBit
    by_cases h2 : n < 2
    · simp only [h2, if_true, pow_zero]
      omega
    · simp only [h2, if_false]
      have hhalf : n / 2 ≠ 0 := by omega
      have := ih (n / 2) (by omega) hhalf
      rw [pow_succ]
      omega

theorem natAbs_signed (x : Int) :
    (if x < 0 then -((x.natAbs : Nat) : Int) else ((x.natAbs : Nat) : Int)) = x := by
  split <;> omega

theorem roundDouble_exact (k : Nat) (hk : k ≤ 2044) (x : Int)
    (hdvd : ((2 ^ k : Nat) : Int) ∣ x) (hb : x.natAbs ≤ 2 ^ (53 + k)) :
    roundDouble x = Num.finite x := by
  unfold roundDouble
  by_cases hsmall : x.natAbs < 2 ^ 53
  · simp only [hsmall, if_true]
  · simp only [hsmall, if_false]
    have hn0 : x.natAbs ≠ 0 := by
      intro h0
      rw [h0] at hsmall
      exact hsmall (pow_pos (by decide) _)
    have hdvdn : 2 ^ k ∣ x.natAbs := by
      have := Int.natAbs_dvd_natAbs.2 hdvd
      rw [Int.natAbs_cast] at this
      exact this
    have hlb := leadingBit_le x.natAbs x.natAbs (le_refl _) hn0
    have hlble : leadingBit x.natAbs x.natAbs ≤ 53 + k := by
      by_contra hgt
      have h1 : 2 ^ (53 + k + 1) ≤ 2 ^ leadingBit x.natAbs x.natAbs :=
        Nat.pow_le_pow_right (by decide) (by omega)
      have h2 : 2 ^ (53 + k) < 2 ^ (53 + k + 1) := Nat.pow_lt_pow_right (by decide) (by omega)
      omega
    have hediv : 2 ^ (leadingBit x.natAbs x.natAbs - 52) ∣ x.natAbs := by
      by_cases hlt : leadingBit x.natAbs x.natAbs ≤ 52 + k
      · exact Nat.dvd_trans (Nat.pow_dvd_pow 2 (by omega)) hdvdn
      · have heq : leadingBit x.natAbs x.natAbs = 53 + k := by omega
        rw [heq] at hlb
        have hx : x.natAbs = 2 ^ (53 + k) := le_antisymm hb hlb
        rw [heq, hx]
        exact Nat.pow_dvd_pow 2 (by omega)
    have hr : x.natAbs % 2 ^ (leadingBit x.natAbs x.natAbs - 52) = 0 :=
      Nat.mod_eq_zero_of_dvd hediv
    have hpos : 0 < 2 ^ (leadingBit x.natAbs x.natAbs - 52) := pow_pos (by decide) _
    have hq : x.natAbs / 2 ^ (leadingBit x.natAbs x.natAbs - 52)
        * 2 ^ (leadingBit x.natAbs x.natAbs - 52) = x.natAbs := Nat.div_mul_cancel hediv
    have hexp : 53 + k < 2098 := by omega
    have hpow := Nat.pow_lt_pow_right (by decide : 1 < 2) hexp
    have hlt : x.natAbs < 2 ^ 2098 := lt_of_le_of_lt hb hpow
    rw [hr, Nat.mul_zero, if_pos hpos, hq, if_pos hlt, natAbs_signed]

theorem foldl_jsAdd_exact (k : Nat) (hk : k ≤ 2044) (l : List Product) (a : Int)
    (ha : ((2 ^ k : Nat) : Int) ∣ a)
    (hl : ∀ p ∈ l, p.Price.isFinite = true ∧ p.Price.units % ((2 ^ k : Nat) : Int) = 0)
    (hb : a.natAbs + (l.map (fun p => p.Price.units.natAbs)).sum ≤ 2 ^ (53 + k)) :
    l.foldl (fun acc q => jsAdd acc q.Price) (Num.finite a)
      = Num.finite (a + (l.map (fun p => p.Price.units)).sum) := by
  induction l generalizing a with
  | nil => simp
  | cons p l ih =>
    obtain ⟨hfin, hmod⟩ := hl p (List.mem_cons_self _ _)
    cases hp : p.Price with
    | finite u =>
      rw [hp] at hmod
      simp only [Num.units] at hmod
      have hu : ((2 ^ k : Nat) : Int) ∣ u := Int.dvd_of_emod_eq_zero hmod
      have hunits : (Num.finite u).units = u := rfl
      rw [List.map_cons, List.sum_cons, hp, hunits] at hb
      have hab : (a + u).natAbs ≤ a.natAbs + u.natAbs := Int.natAbs_add_le a u
      have hround : jsAdd (Num.finite a) (Num.finite u) = Num.finite (a + u) :=
        roundDouble_exact k hk (a + u) (Int.dvd_add ha hu) (by omega)
      rw [List.foldl_cons, hp, hround,
        ih (a + u) (Int.dvd_add ha hu) (fun q hq => hl q (List.mem_cons_of_mem _ hq))
          (by omega)]
      rw [List.map_cons, List.sum_cons, hp, hunits, add_assoc]
    | posInf => rw [hp] at hfin; cases hfin
    | negInf => rw [hp] at hfin; cases hfin
    | nan => rw [hp] at hfin; cases hfin

/-! ## Objects: lookup, update, enumeration -/

theorem getOwn_cons {V : Type} (a : String) (v : V) (o : Obj V) (k : String) :
    Obj.getOwn ((a, v) :: o) k = if a = k then some v else Obj.getOwn o k := by
  unfold Obj.getOwn
  rw [List.find?_cons]
  by_cases h : a = k
  · simp [h]
  · rw [show (a == k) = false from beq_eq_false_iff_ne.2 h]
    simp [h]

theorem getOwn_eq_none_iff {V : Type} (o : Obj V) (k : String) :
    Obj.getOwn o k = none ↔ k ∉ o.names := by
  induction o with
  | nil => simp [Obj.getOwn, Obj.names]
  | cons e o ih =>
    obtain ⟨a, v⟩ := e
    rw [getOwn_cons]
    by_cases h : a = k
    · simp [h, Obj.names]
    · have h2 : ¬ k = a := fun hk => h hk.symm
      simp only [h, if_false, ih, Obj.names, List.map_cons, List.mem_cons, h2, false_or]

theorem getOwn_isSome_iff {V : Type} (o : Obj V) (k : String) :
    (Obj.getOwn o k).isSome = true ↔ k ∈ o.names := by
  rw [← not_iff_not, ← getOwn_eq_none_iff]
  cases Obj.getOwn o k <;> simp

theorem getOwn_mem {V : Type} (o : Obj V) (k : String) (v : V) (h : Obj.getOwn o k = some v) :
    (k, v) ∈ o := by
  induction o with
  | nil => simp [Obj.getOwn] at h
  | cons e o ih =>
    obtain ⟨a, w⟩ := e
    rw [getOwn_cons] at h
    by_cases hk : a = k
    · simp only [hk, if_true, Option.some.injEq] at h
      subst hk; subst h
      exact List.mem_cons_self _ _
    · simp only [hk, if_false] at h
      exact List.mem_cons_of_mem _ (ih h)

theorem getOwn_of_mem {V : Type} (o : Obj V) (hn : o.names.Nodup) (k : String) (v : V)
    (h : (k, v) ∈ o) : Obj.getOwn o k = some v := by
  induction o with
  | nil => simp at h
  | cons e o ih =>
    obtain ⟨a, w⟩ := e
    simp only [Obj.names, List.map_cons, List.nodup_cons] at hn
    rw [getOwn_cons]
    rcases List.mem_cons.1 h with heq | hmem
    · cases heq
      simp
    · have hne : a ≠ k := by
        rintro rfl
        exact hn.1 (List.mem_map_of_mem Prod.fst hmem)
      simp only [hne, if_false]
      exact ih hn.2 hmem

theorem names_modify {V : Type} (o : Obj V) (k : String) (f : V → V) :
    (Obj.modify o k f).names = o.names := by
  unfold Obj.modify Obj.names
  rw [List.map_map]
  apply List.map_congr_left
  intro e _
  by_cases h : e.1 = k <;> simp [h]

theorem getOwn_modify {V : Type} (o : Obj V) (k : String) (f : V → V) (k' : String) :
    Obj.getOwn (Obj.modify o k f) k' =
      if k' = k then (Obj.getOwn o k').map f else Obj.getOwn o k' := by
  induction o with
  | nil => simp [Obj.modify, Obj.getOwn]
  | cons e o ih =>
    obtain ⟨a, w⟩ := e
    have hcons : Obj.modify ((a, w) :: o) k f =
        (if a = k then (a, f w) else (a, w)) :: Obj.modify o k f := by
      simp [Obj.modify]
    rw [hcons]
    by_cases hak : a = k
    · subst hak
      simp only [if_true, getOwn_cons, ih]
      by_cases hk : a = k'
      · subst hk; simp
      · have : ¬ k' = a := fun h => hk h.symm
        simp [hk, this]
    · simp only [hak, if_false, getOwn_cons, ih]
      by_cases hk : a = k'
      · subst hk; simp [hak]
      · simp [hk]

theorem put_of_none {V : Type} (o : Obj V) (k : String) (v : V) (h : Obj.getOwn o k = none) :
    Obj.put o k v = o ++ [(k, v)] := by
  simp [Obj.put, h]

theorem put_of_mem {V : Type} (o : Obj V) (k : String) (v : V) (h : k ∈ o.names) :
    Obj.put o k v = Obj.modify o k (fun _ => v) := by
  have := (getOwn_isSome_iff o k).2 h
  simp [Obj.put, this, Obj.modify]

theorem getOwn_append_single {V : Type} (o : Obj V) (k : String) (v : V) (k' : String) :
    Obj.getOwn (o ++ [(k, v)]) k' =
      match Obj.getOwn o k' with
      | some w => some w
      | none => if k = k' then some v else none := by
  induction o with
  | nil => simp [getOwn_cons, Obj.getOwn]
  | cons e o ih =>
    obtain ⟨a, w⟩ := e
    rw [List.cons_append, getOwn_cons, getOwn_cons, ih]
    by_cases h : a = k' <;> simp [h]

theorem names_put {V : Type} (o : Obj V) (k : String) (v : V) :
    (Obj.put o k v).names = if k ∈ o.names then o.names else o.names ++ [k] := by
  by_cases h : k ∈ o.names
  · rw [put_of_mem o k v h, names_modify, if_pos h]
  · rw [put_of_none o k v ((getOwn_eq_none_iff o k).2 h), if_neg h]
    simp [Obj.names]

theorem getOwn_put {V : Type} (o : Obj V) (k : String) (v : V) (k' : String) :
    Obj.getOwn (Obj.put o k v) k' = if k' = k then some v else Obj.getOwn o k' := by
  by_cases h : k ∈ o.names
  · rw [put_of_mem o k v h, getOwn_modify]
    by_cases hk : k' = k
    · subst hk
      obtain ⟨w, hw⟩ := Option.isSome_iff_exists.1 ((getOwn_isSome_iff o k').2 h)
      simp [hw]
    · simp [hk]
  · have hn := (getOwn_eq_none_iff o k).2 h
    rw [put_of_none o k v hn, getOwn_append_single]
    by_cases hk : k' = k
    · subst hk
      simp [hn]
    · have : ¬ k = k' := fun h => hk h.symm
      simp only [hk, this, if_false]
      cases Obj.getOwn o k' <;> rfl

theorem names_assign_nodup {V : Type} (o : Obj V) (k : String) (v : V) (h : o.names.Nodup) :
    (Obj.assign o k v).names.Nodup := by
  unfold Obj.assign
  split
  · exact h
  · rw [names_put]
    split
    · exact h
    · rename_i hk
      exact List.Nodup.append h (List.nodup_singleton k) (by simpa using hk)

/-! ## First occurrences -/

theorem mem_firstOccurrences (l : List String) (a : String) :
    a ∈ firstOccurrences l ↔ a ∈ l := by
  induction l with
  | nil => simp [firstOccurrences]
  | cons b l ih =>
    simp only [firstOccurrences, List.mem_cons, List.mem_filter, ih, bne_iff_ne, ne_eq]
    by_cases h : a = b <;> simp [h]

theorem nodup_firstOccurrences (l : List String) : (firstOccurrences l).Nodup := by
  induction l with
  | nil => simp [firstOccurrences]
  | cons b l ih =>
    simp only [firstOccurrences, List.nodup_cons, List.mem_filter, bne_iff_ne, ne_eq,
      not_true_eq_false, and_false, not_false_eq_true, true_and]
    exact ih.filter _

theorem firstOccurrences_append_single (l : List String) (a : String) :
    firstOccurrences (l ++ [a]) =
      if a ∈ l then firstOccurrences l else firstOccurrences l ++ [a] := by
  induction l with
  | nil => simp [firstOccurrences]
  | cons b l ih =>
    have hstep : firstOccurrences (b :: l ++ [a]) =
        b :: (firstOccurrences (l ++ [a])).filter (fun c => c != b) := rfl
    have hcons : firstOccurrences (b :: l) =
        b :: (firstOccurrences l).filter (fun c => c != b) := rfl
    rw [hstep, ih, hcons]
    by_cases hab : a = b
    · subst hab
      by_cases hal : a ∈ l
      · simp [hal]
      · simp [hal, List.filter_append]
    · by_cases hal : a ∈ l
      · simp [hal, hab]
      · simp [hal, hab, List.filter_append]

/-! ## Month labels and group keys -/

theorem monthLabel_plain (H : Host) (d : Option String) : plainLabel (H.monthLabel d) = true := by
  unfold Host.monthLabel
  cases h : H.monthYear d with
  | none => decide
  | some l => exact H.monthYear_plain d l h

theorem hyphen_not_mem_of_plain (l : String) (h : plainLabel l = true) : '-' ∉ l.data := by
  intro hm
  unfold plainLabel at h
  simp only [Bool.and_eq_true, Bool.not_eq_true'] at h
  have : l.data.contains '-' = true := List.elem_iff.2 hm
  rw [h.1.1] at this
  cases this

theorem isArrayIndex_digits (k : String) (h : isArrayIndex k = true) :
    ∀ c ∈ k.data, c.isDigit = true := by
  unfold isArrayIndex arrayIndex? at h
  split at h
  · simp at h
  · rename_i c cs hk
    split at h
    · rename_i hall
      simp only [Bool.and_eq_true, List.all_eq_true] at hall
      rw [hk]
      exact hall.1.1
    · simp at h

theorem split_at_last_hyphen (c c' m m' : List Char) (hm : '-' ∉ m) (hm' : '-' ∉ m')
    (h : c ++ '-' :: m = c' ++ '-' :: m') : c = c' ∧ m = m' := by
  induction c generalizing c' with
  | nil =>
    cases c' with
    | nil => simpa using h
    | cons y cs' =>
      simp only [List.nil_append, List.cons_append, List.cons.injEq] at h
      exact absurd (h.2 ▸ (by simp : '-' ∈ cs' ++ '-' :: m')) hm
  | cons x cs ih =>
    cases c' with
    | nil =>
      simp only [List.nil_append, List.cons_append, List.cons.injEq] at h
      exact absurd (h.2 ▸ (by simp : '-' ∈ cs ++ '-' :: m)) hm'
    | cons y cs' =>
      simp only [List.cons_append, List.cons.injEq] at h
      obtain ⟨h1, h2⟩ := ih cs' h.2
      exact ⟨by rw [h.1, h1], h2⟩

theorem groupKey_data (H : Host) (p : Product) :
    (groupKey H p).data = (groupCategory p).data ++ '-' :: (H.monthLabel p.DateOfSale).data := by
  simp [groupKey, String.data_append]

theorem groupKey_inj (H : Host) (p q : Product) (h : groupKey H p = groupKey H q) :
    groupCategory p = groupCategory q ∧
      H.monthLabel p.DateOfSale = H.monthLabel q.DateOfSale := by
  have hd := congrArg String.data h
  rw [groupKey_data, groupKey_data] at hd
  obtain ⟨h1, h2⟩ := split_at_last_hyphen _ _ _ _
    (hyphen_not_mem_of_plain _ (monthLabel_plain H p.DateOfSale))
    (hyphen_not_mem_of_plain _ (monthLabel_plain H q.DateOfSale)) hd
  exact ⟨String.ext h1, String.ext h2⟩

theorem groupKey_not_index (H : Host) (p : Product) : isArrayIndex (groupKey H p) = false := by
  by_contra hc
  have hd := isArrayIndex_digits _ (by simpa using hc) '-' (by rw [groupKey_data]; simp)
  revert hd
  decide

/-! ## The grouping function -/

theorem groupBy_nil (H : Host) : groupByCategoryAndMonth H [] = [] := rfl

theorem groupBy_append_single (H : Host) (ps : List Product) (p : Product) :
    groupByCategoryAndMonth H (ps ++ [p]) = groupStep H (groupByCategoryAndMonth H ps) p := by
  simp [groupByCategoryAndMonth, List.foldl_append]

theorem names_groupStep (H : Host) (acc : Obj Group) (p : Product) :
    (groupStep H acc p).names =
      if groupKey H p ∈ acc.names then acc.names else acc.names ++ [groupKey H p] := by
  unfold groupStep
  simp only [names_modify]
  by_cases h : groupKey H p ∈ acc.names
  · have hs := (getOwn_isSome_iff acc (groupKey H p)).2 h
    have hn : (Obj.getOwn acc (groupCategory p ++ "-" ++ H.monthLabel p.DateOfSale)).isNone
        = false := by
      have : groupCategory p ++ "-" ++ H.monthLabel p.DateOfSale = groupKey H p := rfl
      rw [this]
      cases hg : Obj.getOwn acc (groupKey H p) with
      | none => rw [hg] at hs; cases hs
      | some g => rfl
    rw [hn]
    simp [h]
  · have hn := (getOwn_eq_none_iff acc (groupKey H p)).2 h
    have hn' : (Obj.getOwn acc (groupCategory p ++ "-" ++ H.monthLabel p.DateOfSale)).isNone
        = true := by
      have : groupCategory p ++ "-" ++ H.monthLabel p.DateOfSale = groupKey H p := rfl
      rw [this, hn]
      rfl
    rw [hn']
    simp only [if_true, names_put]
    rfl

theorem getOwn_groupStep (H : Host) (acc : Obj Group) (p : Product) (k : String) :
    Obj.getOwn (groupStep H acc p) k =
      if k = groupKey H p then
        some (match Obj.getOwn acc k with
          | some g => { category := g.category, month := g.month,
                        totalSales := jsAdd g.totalSales p.Price,
                        totalItems := g.totalItems + 1 }
          | none => { category := groupCategory p, month := H.monthLabel p.DateOfSale,
                      totalSales := jsAdd (Num.finite 0) p.Price, totalItems := 0 + 1 })
      else Obj.getOwn acc k := by
  have hkey : groupCategory p ++ "-" ++ H.monthLabel p.DateOfSale = groupKey H p := rfl
  unfold groupStep
  simp only [hkey, getOwn_modify]
  by_cases hk : k = groupKey H p
  · subst hk
    simp only [if_true]
    cases hg : Obj.getOwn acc (groupKey H p) with
    | none => simp [getOwn_put]
    | some g => simp [hg]
  · simp only [hk, if_false]
    cases hg : Obj.getOwn acc (groupKey H p) with
    | none => simp [getOwn_put, hk]
    | some g => simp

theorem names_groupBy (H : Host) (ps : List Product) :
    (groupByCategoryAndMonth H ps).names = firstOccurrences (ps.map (groupKey H)) := by
  induction ps using List.reverseRecOn with
  | nil => rfl
  | append_singleton ps p ih =>
    rw [groupBy_append_single, names_groupStep, ih, List.map_append, List.map_singleton,
      firstOccurrences_append_single]
    simp only [mem_firstOccurrences]

theorem nodup_names_groupBy (H : Host) (ps : List Product) :
    (groupByCategoryAndMonth H ps).names.Nodup := by
  rw [names_groupBy]
  exact nodup_firstOccurrences _

theorem recordsOf_append_single (H : Host) (k : String) (ps : List Product) (p : Product) :
    recordsOf H k (ps ++ [p]) = recordsOf H k ps ++ (if groupKey H p = k then [p] else []) := by
  unfold recordsOf
  rw [List.filter_append]
  by_cases h : groupKey H p = k <;> simp [h]

theorem getOwn_groupBy (H : Host) (ps : List Product) (k : String) :
    Obj.getOwn (groupByCategoryAndMonth H ps) k = groupOf H k ps := by
  induction ps using List.reverseRecOn with
  | nil => rfl
  | append_singleton ps p ih =>
    rw [groupBy_append_single, getOwn_groupStep, ih]
    unfold groupOf
    rw [recordsOf_append_single]
    by_cases hk : k = groupKey H p
    · subst hk
      simp only [if_true]
      cases hr : recordsOf H (groupKey H p) ps with
      | nil => simp
      | cons q rest => simp [List.foldl_append]
    · have hk' : ¬ groupKey H p = k := fun h => hk h.symm
      simp [hk, hk']

/-! ## Sums over the entries of an object -/

theorem modify_of_not_mem {V : Type} (o : Obj V) (k : String) (f : V → V) (h : k ∉ o.names) :
    Obj.modify o k f = o := by
  unfold Obj.modify
  conv_rhs => rw [← List.map_id o]
  apply List.map_congr_left
  intro e he
  have : e.1 ≠ k := by
    rintro rfl
    exact h (List.mem_map_of_mem Prod.fst he)
  simp [this]

theorem modify_modify {V : Type} (o : Obj V) (k : String) (f g : V → V) :
    Obj.modify (Obj.modify o k f) k g = Obj.modify o k (fun v => g (f v)) := by
  unfold Obj.modify
  rw [List.map_map]
  apply List.map_congr_left
  intro e _
  by_cases h : e.1 = k <;> simp [h]

theorem sum_modify {V M : Type} [AddCommMonoid M] (φ : V → M) (o : Obj V) (k : String)
    (f : V → V) (v : V) (hn : o.names.Nodup) (hv : Obj.getOwn o k = some v) :
    ((Obj.modify o k f).map (fun e => φ e.2)).sum + φ v
      = (o.map (fun e => φ e.2)).sum + φ (f v) := by
  induction o with
  | nil => simp [Obj.getOwn] at hv
  | cons e o ih =>
    obtain ⟨a, w⟩ := e
    simp only [Obj.names, List.map_cons, List.nodup_cons] at hn
    rw [getOwn_cons] at hv
    have hcons : Obj.modify ((a, w) :: o) k f =
        (if a = k then (a, f w) else (a, w)) :: Obj.modify o k f := by
      simp [Obj.modify]
    rw [hcons]
    by_cases hak : a = k
    · subst hak
      simp only [if_true, Option.some.injEq] at hv
      subst hv
      rw [modify_of_not_mem o a f hn.1]
      simp only [if_true, List.map_cons, List.sum_cons]
      abel
    · simp only [hak, if_false] at hv
      simp only [hak, if_false, List.map_cons, List.sum_cons]
      have := ih hn.2 hv
      rw [add_assoc, this, add_assoc]

theorem groupStep_of_none (H : Host) (acc : Obj Group) (p : Product)
    (hg : Obj.getOwn acc (groupKey H p) = none) :
    groupStep H acc p = Obj.modify
      (acc ++ [(groupKey H p,
        Group.mk (groupCategory p) (H.monthLabel p.DateOfSale) (Num.finite 0) 0)])
      (groupKey H p)
      (fun g => Group.mk g.category g.month (jsAdd g.totalSales p.Price)
        (g.totalItems + 1)) := by
  have hkey : groupCategory p ++ "-" ++ H.monthLabel p.DateOfSale = groupKey H p := rfl
  unfold groupStep
  simp only [hkey, hg, Option.isNone_none, if_true, put_of_none _ _ _ hg, modify_modify]

theorem groupStep_of_some (H : Host) (acc : Obj Group) (p : Product) (g : Group)
    (hg : Obj.getOwn acc (groupKey H p) = some g) :
    groupStep H acc p = Obj.modify acc (groupKey H p)
      (fun g => Group.mk g.category g.month (jsAdd g.totalSales p.Price)
        (g.totalItems + 1)) := by
  have hkey : groupCategory p ++ "-" ++ H.monthLabel p.DateOfSale = groupKey H p := rfl
  unfold groupStep
  simp only [hkey, hg, Option.isNone_some, modify_modify]
  rfl

theorem nodup_append_new {V : Type} (o : Obj V) (k : String) (v : V) (hn : o.names.Nodup)
    (hg : Obj.getOwn o k = none) : (o ++ [(k, v)]).names.Nodup := by
  have hk := (getOwn_eq_none_iff _ _).1 hg
  simp only [Obj.names, List.map_append, List.map_cons, List.map_nil]
  exact List.Nodup.append hn (List.nodup_singleton _) (by simpa [Obj.names] using hk)

theorem sum_groupStep {M : Type} [AddCommMonoid M] [IsRightCancelAdd M] (φ : Group → M)
    (δ : M) (H : Host) (acc : Obj Group) (p : Product) (hn : acc.names.Nodup)
    (hnone : Obj.getOwn acc (groupKey H p) = none →
      φ (Group.mk (groupCategory p) (H.monthLabel p.DateOfSale)
        (jsAdd (Num.finite 0) p.Price) (0 + 1)) = δ)
    (hsome : ∀ g : Group, Obj.getOwn acc (groupKey H p) = some g →
      φ (Group.mk g.category g.month (jsAdd g.totalSales p.Price) (g.totalItems + 1))
        = φ g + δ) :
    ((groupStep H acc p).map (fun e => φ e.2)).sum = (acc.map (fun e => φ e.2)).sum + δ := by
  cases hg : Obj.getOwn acc (groupKey H p) with
  | none =>
    rw [groupStep_of_none H acc p hg]
    have h := sum_modify φ
      (acc ++ [(groupKey H p,
        Group.mk (groupCategory p) (H.monthLabel p.DateOfSale) (Num.finite 0) 0)])
      (groupKey H p)
      (fun g => Group.mk g.category g.month (jsAdd g.totalSales p.Price) (g.totalItems + 1))
      (Group.mk (groupCategory p) (H.monthLabel p.DateOfSale) (Num.finite 0) 0)
      (nodup_append_new acc _ _ hn hg)
      (by rw [getOwn_append_single, hg]; simp)
    have hnew := hnone hg
    simp only [Nat.zero_add] at hnew
    simp only [hnew, List.map_append, List.sum_append, List.map_cons, List.map_nil,
      List.sum_cons, List.sum_nil, add_zero] at h
    rw [add_right_comm] at h
    exact add_right_cancel h
  | some g =>
    rw [groupStep_of_some H acc p g hg]
    have h := sum_modify φ acc (groupKey H p)
      (fun g => Group.mk g.category g.month (jsAdd g.totalSales p.Price) (g.totalItems + 1))
      g hn hg
    rw [hsome g hg, ← add_assoc, add_right_comm] at h
    exact add_right_cancel h

theorem sum_items_groupBy (H : Host) (ps : List Product) :
    ((groupByCategoryAndMonth H ps).map (fun e => e.2.totalItems)).sum = ps.length := by
  induction ps using List.reverseRecOn with
  | nil => rfl
  | append_singleton ps p ih =>
    rw [groupBy_append_single,
      sum_groupStep (fun g => g.totalItems) 1 H _ p (nodup_names_groupBy H ps)
        (fun _ => rfl) (fun _ _ => rfl), ih]
    simp

/-! ## Exact prices -/

theorem exactPrices_sublist (k : Nat) (ps l : List Product) (hx : ExactPrices k ps)
    (hl : l.Sublist ps) : ExactPrices k l := by
  obtain ⟨hk, hall, hsum⟩ := hx
  refine ⟨hk, fun p hp => hall p (hl.subset hp), le_trans ?_ hsum⟩
  exact (hl.map _).sum_le_sum (fun _ _ => Nat.zero_le _)

theorem exactPrices_perm (k : Nat) (ps ps' : List Product) (hx : ExactPrices k ps)
    (h : ps.Perm ps') : ExactPrices k ps' := by
  obtain ⟨hk, hall, hsum⟩ := hx
  refine ⟨hk, fun p hp => hall p (h.mem_iff.2 hp), ?_⟩
  rw [← (h.map _).sum_eq]
  exact hsum

theorem fold_prices_exact (k : Nat) (l : List Product) (hx : ExactPrices k l) :
    l.foldl (fun acc q => jsAdd acc q.Price) (Num.finite 0)
      = Num.finite ((l.map (fun p => p.Price.units)).sum) := by
  obtain ⟨hk, hall, hsum⟩ := hx
  have h := foldl_jsAdd_exact k hk l 0 (dvd_zero _) hall (by simpa using hsum)
  rw [h, zero_add]

theorem recordsOf_sublist (H : Host) (key : String) (ps : List Product) :
    (recordsOf H key ps).Sublist ps :=
  List.filter_sublist _

theorem totalSales_exact (H : Host) (k : Nat) (ps : List Product) (hx : ExactPrices k ps)
    (key : String) (g : Group)
    (hg : Obj.getOwn (groupByCategoryAndMonth H ps) key = some g) :
    g.totalSales = Num.finite (((recordsOf H key ps).map (fun p => p.Price.units)).sum) := by
  rw [getOwn_groupBy] at hg
  have hfold := fold_prices_exact k (recordsOf H key ps)
    (exactPrices_sublist k ps _ hx (recordsOf_sublist H key ps))
  unfold groupOf at hg
  cases hr : recordsOf H key ps with
  | nil => simp [hr] at hg
  | cons q rest =>
    simp only [hr, Option.some.injEq] at hg
    rw [hr] at hfold
    rw [← hg]
    exact hfold

theorem jsAdd_next_exact (H : Host) (k : Nat) (ps : List Product) (p : Product)
    (hx : ExactPrices k (ps ++ [p])) :
    jsAdd (Num.finite (((recordsOf H (groupKey H p) ps).map (fun q => q.Price.units)).sum))
        p.Price
      = Num.finite (((recordsOf H (groupKey H p) ps).map (fun q => q.Price.units)).sum
          + p.Price.units) := by
  have hps : ExactPrices k ps := exactPrices_sublist k _ _ hx (List.sublist_append_left _ _)
  have h1 := fold_prices_exact k (recordsOf H (groupKey H p) ps)
    (exactPrices_sublist k ps _ hps (recordsOf_sublist H _ ps))
  have h2 := fold_prices_exact k (recordsOf H (groupKey H p) (ps ++ [p]))
    (exactPrices_sublist k _ _ hx (recordsOf_sublist H _ _))
  rw [recordsOf_append_single, if_pos rfl, List.foldl_append, h1] at h2
  simpa using h2

theorem sum_sales_groupBy (H : Host) (k : Nat) (ps : List Product) (hx : ExactPrices k ps) :
    ((groupByCategoryAndMonth H ps).map (fun e => e.2.totalSales.units)).sum
      = (ps.map (fun p => p.Price.units)).sum := by
  induction ps using List.reverseRecOn with
  | nil => rfl
  | append_singleton ps p ih =>
    have hps : ExactPrices k ps := exactPrices_sublist k _ _ hx (List.sublist_append_left _ _)
    have hnext := jsAdd_next_exact H k ps p hx
    rw [groupBy_append_single,
      sum_groupStep (fun g => g.totalSales.units) p.Price.units H _ p
        (nodup_names_groupBy H ps) ?_ ?_, ih hps]
    · simp
    · intro hnone
      rw [getOwn_groupBy] at hnone
      have hnil : recordsOf H (groupKey H p) ps = [] := by
        unfold groupOf at hnone
        cases hr : recordsOf H (groupKey H p) ps with
        | nil => rfl
        | cons q rest => simp [hr] at hnone
      rw [hnil] at hnext
      simp only [List.map_nil, List.sum_nil, zero_add] at hnext
      show (jsAdd (Num.finite 0) p.Price).units = p.Price.units
      rw [hnext]
      rfl
    · intro g hg
      have hsales := totalSales_exact H k ps hps _ g hg
      show (jsAdd g.totalSales p.Price).units = g.totalSales.units + p.Price.units
      rw [hsales, hnext]
      rfl

/-! ## Permuting the product list -/

theorem mem_recordsOf (H : Host) (k : String) (ps : List Product) (p : Product)
    (h : p ∈ recordsOf H k ps) : groupKey H p = k := by
  unfold recordsOf at h
  simpa using (List.mem_filter.1 h).2

theorem groupOf_perm (H : Host) (n : Nat) (k : String) (ps ps' : List Product)
    (hx : ExactPrices n ps) (h : ps.Perm ps') :
    groupOf H k ps = groupOf H k ps' := by
  have hp : (recordsOf H k ps).Perm (recordsOf H k ps') := h.filter _
  have hx' := exactPrices_perm n ps ps' hx h
  have hf := fold_prices_exact n (recordsOf H k ps)
    (exactPrices_sublist n ps _ hx (recordsOf_sublist H k ps))
  have hf' := fold_prices_exact n (recordsOf H k ps')
    (exactPrices_sublist n ps' _ hx' (recordsOf_sublist H k ps'))
  rw [(hp.map (fun p => p.Price.units)).sum_eq] at hf
  unfold groupOf
  cases h1 : recordsOf H k ps with
  | nil =>
    rw [h1] at hp
    rw [List.nil_perm.1 hp]
  | cons p rest =>
    cases h2 : recordsOf H k ps' with
    | nil =>
      rw [h2] at hp
      rw [List.perm_nil.1 hp] at h1
      cases h1
    | cons q rest' =>
      rw [h1, h2] at hf
      rw [h2] at hf'
      rw [h1, h2] at hp
      have hkp := mem_recordsOf H k ps p (h1 ▸ List.mem_cons_self _ _)
      have hkq := mem_recordsOf H k ps' q (h2 ▸ List.mem_cons_self _ _)
      obtain ⟨hc, hm⟩ := groupKey_inj H p q (hkp.trans hkq.symm)
      have hl := hp.length_eq
      show some (Group.mk (groupCategory p) (H.monthLabel p.DateOfSale)
          ((p :: rest).foldl (fun acc q => jsAdd acc q.Price) (Num.finite 0))
          (p :: rest).length)
        = some (Group.mk (groupCategory q) (H.monthLabel q.DateOfSale)
          ((q :: rest').foldl (fun acc q => jsAdd acc q.Price) (Num.finite 0))
          (q :: rest').length)
      rw [hf, hf', hc, hm, hl]

theorem mem_iff_getOwn {V : Type} (o : Obj V) (hn : o.names.Nodup) (k : String) (v : V) :
    (k, v) ∈ o ↔ Obj.getOwn o k = some v :=
  ⟨getOwn_of_mem o hn k v, getOwn_mem o k v⟩

/-! ## The filter -/

theorem filterByTitle_eq (H : Host) (searchText : String) (ps : List Product)
    (hT : ∀ p ∈ ps, p.Title.isSome = true) :
    filterByTitle H searchText ps = some (ps.filter (fun p =>
      match p.Title with
      | some title => includes (H.toLowerCase title) (H.toLowerCase searchText)
      | none => false)) := by
  induction ps with
  | nil => rfl
  | cons p ps ih =>
    have hp := hT p (List.mem_cons_self _ _)
    have ih' := ih (fun q hq => hT q (List.mem_cons_of_mem _ hq))
    cases ht : p.Title with
    | none => rw [ht] at hp; cases hp
    | some title =>
      unfold filterByTitle
      simp only [ht, ih', List.filter_cons]
      by_cases hi : includes (H.toLowerCase title) (H.toLowerCase searchText) = true
      · simp [hi]
      · simp [hi]

theorem satisfiesCriteria_eq (H : Host) (searchText selectedCategory : String)
    (soldStatus : Option Bool) :
    satisfiesCriteria H searchText selectedCategory soldStatus = fun p =>
      ((searchText == "" ||
          match p.Title with
          | some title => includes (H.toLowerCase title) (H.toLowerCase searchText)
          | none => false)
        && (selectedCategory == "" || p.Category == some selectedCategory)
        && (soldStatus == none || p.Sold == soldStatus)) := rfl

theorem applyFilters_eq (H : Host) (ps : List Product) (searchText selectedCategory : String)
    (soldStatus : Option Bool) (hT : ∀ p ∈ ps, p.Title.isSome = true) :
    applyFilters H ps searchText selectedCategory soldStatus
      = some (ps.filter (satisfiesCriteria H searchText selectedCategory soldStatus)) := by
  unfold applyFilters
  rw [satisfiesCriteria_eq]
  have hs' : searchText = "" ∨ (searchText == "") = false := by
    by_cases hs : searchText = ""
    · exact Or.inl hs
    · exact Or.inr (beq_eq_false_iff_ne.2 hs)
  have hc' : selectedCategory = "" ∨ (selectedCategory == "") = false := by
    by_cases hc : selectedCategory = ""
    · exact Or.inl hc
    · exact Or.inr (beq_eq_false_iff_ne.2 hc)
  rcases hs' with hs | hs <;> rcases hc' with hc | hc <;> cases soldStatus <;>
    simp [hs, hc, bne, filterByTitle_eq H searchText ps hT, List.filter_filter, Bool.and_comm,
      Bool.and_assoc]

theorem applyFilters_no_search (H : Host) (ps : List Product) (selectedCategory : String)
    (soldStatus : Option Bool) :
    applyFilters H ps "" selectedCategory soldStatus
      = some (ps.filter (satisfiesCriteria H "" selectedCategory soldStatus)) := by
  unfold applyFilters
  rw [satisfiesCriteria_eq]
  have hc' : selectedCategory = "" ∨ (selectedCategory == "") = false := by
    by_cases hc : selectedCategory = ""
    · exact Or.inl hc
    · exact Or.inr (beq_eq_false_iff_ne.2 hc)
  rcases hc' with hc | hc <;> cases soldStatus <;>
    simp [hc, bne, List.filter_filter, Bool.and_comm]

/-! ## Enumeration order -/

theorem ownEntries_perm {V : Type} (o : Obj V) : o.ownEntries.Perm o := by
  unfold Obj.ownEntries
  exact ((List.perm_insertionSort _ _).append_right _).trans (List.filter_append_perm _ o)

theorem ownEntries_of_no_index {V : Type} (o : Obj V)
    (h : ∀ k ∈ o.names, isArrayIndex k = false) : o.ownEntries = o := by
  unfold Obj.ownEntries
  have h1 : o.filter (fun e => isArrayIndex e.1) = [] := by
    rw [List.filter_eq_nil_iff]
    intro e he
    simp [h e.1 (List.mem_map_of_mem Prod.fst he)]
  have h2 : o.filter (fun e => !isArrayIndex e.1) = o := by
    rw [List.filter_eq_self]
    intro e he
    simp [h e.1 (List.mem_map_of_mem Prod.fst he)]
  rw [h1, h2]
  rfl

theorem nodup_names_ownEntries {V : Type} (o : Obj V) (hn : o.names.Nodup) :
    o.ownEntries.names.Nodup :=
  ((ownEntries_perm o).map Prod.fst).nodup_iff.2 hn

theorem rows_of_keys {V : Type} (o : Obj V) (hn : o.names.Nodup) (d : V) :
    (Object.keys o).map (fun k => (k, (Obj.getOwn o k).getD d)) = o.ownEntries := by
  unfold Object.keys
  rw [List.map_map]
  conv_rhs => rw [← List.map_id o.ownEntries]
  apply List.map_congr_left
  rintro ⟨k, v⟩ he
  have hmem : (k, v) ∈ o := (ownEntries_perm o).mem_iff.1 he
  simp [getOwn_of_mem o hn k v hmem]

/-! ## The category tally -/

theorem categoryCounts_append_single (ps : List Product) (p : Product) :
    categoryCounts (ps ++ [p]) = pieStep (categoryCounts ps) p := by
  simp [categoryCounts, List.foldl_append]

theorem names_pieStep (acc : Obj Tally) (p : Product) :
    (pieStep acc p).names =
      if pieCategory p = "__proto__" ∨ pieCategory p ∈ acc.names then acc.names
      else acc.names ++ [pieCategory p] := by
  unfold pieStep Obj.assign
  by_cases hp : pieCategory p = "__proto__"
  · simp [hp]
  · simp only [beq_iff_eq, hp, if_false, false_or, names_put]

theorem getOwn_pieStep (acc : Obj Tally) (p : Product) (k : String) :
    Obj.getOwn (pieStep acc p) k =
      if pieCategory p = "__proto__" then Obj.getOwn acc k
      else if k = pieCategory p then some (tallyNext acc (pieCategory p))
      else Obj.getOwn acc k := by
  unfold pieStep Obj.assign
  by_cases hp : pieCategory p = "__proto__"
  · simp [hp]
  · simp only [beq_iff_eq, hp, if_false, getOwn_put]

theorem firstOccurrences_filter (q : String → Bool) (l : List String) :
    firstOccurrences (l.filter q) = (firstOccurrences l).filter q := by
  induction l with
  | nil => rfl
  | cons a l ih =>
    have hcons : firstOccurrences (a :: l) =
        a :: (firstOccurrences l).filter (fun c => c != a) := rfl
    rw [hcons, List.filter_cons]
    by_cases hq : q a = true
    · simp only [hq, if_true, List.filter_cons]
      have hstep : firstOccurrences (a :: l.filter q) =
          a :: (firstOccurrences (l.filter q)).filter (fun c => c != a) := rfl
      rw [hstep, ih, List.filter_filter, List.filter_filter]
      congr 1
      apply List.filter_congr
      intro x _
      exact Bool.and_comm _ _
    · simp only [hq, Bool.false_eq_true, if_false, List.filter_cons, ih, List.filter_filter]
      apply List.filter_congr
      intro x _
      by_cases hx : x = a
      · subst hx
        simp [hq]
      · simp [hx]

theorem names_categoryCounts (ps : List Product) :
    (categoryCounts ps).names =
      firstOccurrences ((ps.map pieCategory).filter (fun c => c != "__proto__")) := by
  induction ps using List.reverseRecOn with
  | nil => rfl
  | append_singleton ps p ih =>
    rw [categoryCounts_append_single, names_pieStep, ih, List.map_append, List.filter_append,
      List.map_singleton]
    by_cases hp : pieCategory p = "__proto__"
    · simp [hp]
    · have hf : [pieCategory p].filter (fun c => c != "__proto__") = [pieCategory p] := by
        simp [hp]
      rw [hf, firstOccurrences_append_single]
      simp only [hp, false_or, mem_firstOccurrences]

theorem nodup_names_categoryCounts (ps : List Product) : (categoryCounts ps).names.Nodup := by
  rw [names_categoryCounts]
  exact nodup_firstOccurrences _

theorem getOwn_categoryCounts (ps : List Product) (k : String) :
    Obj.getOwn (categoryCounts ps) k = tallyOf k ps := by
  induction ps using List.reverseRecOn with
  | nil =>
    unfold tallyOf
    by_cases hk : k = "__proto__" <;> simp [hk, categoryCounts, Obj.getOwn]
  | append_singleton ps p ih =>
    rw [categoryCounts_append_single, getOwn_pieStep]
    by_cases hp : pieCategory p = "__proto__"
    · simp only [hp, if_true, ih]
      unfold tallyOf
      by_cases hk : k = "__proto__"
      · simp [hk]
      · have : ¬ "__proto__" = k := fun h => hk h.symm
        simp [hk, List.filter_append, hp, this]
    · simp only [hp, if_false]
      by_cases hk : k = pieCategory p
      · subst hk
        simp only [if_true]
        unfold tallyNext
        rw [ih]
        unfold tallyOf
        simp only [hp, if_false, List.filter_append, List.length_append]
        cases hlen : (ps.filter (fun q => pieCategory q == pieCategory p)).length with
        | zero =>
          by_cases hi : pieCategory p ∈ inheritedNames <;> simp [hi]
        | succ n =>
          by_cases hi : pieCategory p ∈ inheritedNames <;> simp [hi]
      · have hk' : ¬ pieCategory p = k := fun h => hk h.symm
        simp only [hk, if_false, ih]
        unfold tallyOf
        simp [List.filter_append, hk']

theorem preparePieChartData_eq (ps : List Product) :
    preparePieChartData ps = (categoryCounts ps).ownEntries :=
  rows_of_keys (categoryCounts ps) (nodup_names_categoryCounts ps) (Tally.count 0)

theorem proto_mem_inheritedNames : "__proto__" ∈ inheritedNames := by decide

theorem tallyOf_not_text (c : String) (ps : List Product) (hc : c ∉ inheritedNames) :
    tallyOf c ps ≠ some Tally.text := by
  unfold tallyOf
  have hi : inheritedNames.contains c = false := by
    rw [Bool.eq_false_iff]
    intro h
    exact hc (List.elem_iff.1 h)
  split
  · simp
  · split
    · simp
    · simp [hc]

theorem tallyOf_eq_some (c : String) (ps : List Product) (t : Tally)
    (h : tallyOf c ps = some t) :
    c ≠ "__proto__" ∧ (∃ p ∈ ps, pieCategory p = c) ∧
      (c ∉ inheritedNames → t = Tally.count (ps.countP (fun p => pieCategory p == c))) := by
  unfold tallyOf at h
  by_cases hp : c = "__proto__"
  · simp [hp] at h
  · simp only [hp, if_false] at h
    refine ⟨hp, ?_, ?_⟩
    · cases hf : ps.filter (fun p => pieCategory p == c) with
      | nil => simp [hf] at h
      | cons q rest =>
        have hq : q ∈ ps.filter (fun p => pieCategory p == c) := hf ▸ List.mem_cons_self _ _
        obtain ⟨hq1, hq2⟩ := List.mem_filter.1 hq
        exact ⟨q, hq1, by simpa using hq2⟩
    · intro hc
      have hi : inheritedNames.contains c = false := by
        rw [Bool.eq_false_iff]
        intro h'
        exact hc (List.elem_iff.1 h')
      rw [List.countP_eq_length_filter]
      cases hlen : (ps.filter (fun p => pieCategory p == c)).length with
      | zero => simp [hlen] at h
      | succ n =>
        simp only [hlen, hi, Bool.false_eq_true, if_false, Option.some.injEq] at h
        exact h.symm

theorem value_sum_pieStep (ps : List Product) (p : Product) (hc : pieCategory p ∉ inheritedNames) :
    ((pieStep (categoryCounts ps) p).map (fun e => e.2.value)).sum
      = ((categoryCounts ps).map (fun e => e.2.value)).sum + 1 := by
  have hp : pieCategory p ≠ "__proto__" := fun h => hc (h ▸ proto_mem_inheritedNames)
  have hi : inheritedNames.contains (pieCategory p) = false := by
    rw [Bool.eq_false_iff]
    intro h
    exact hc (List.elem_iff.1 h)
  have hstep : pieStep (categoryCounts ps) p = Obj.put (categoryCounts ps) (pieCategory p)
      (tallyNext (categoryCounts ps) (pieCategory p)) := by
    unfold pieStep Obj.assign
    simp [hp]
  rw [hstep]
  cases hg : Obj.getOwn (categoryCounts ps) (pieCategory p) with
  | none =>
    rw [put_of_none _ _ _ hg]
    unfold tallyNext
    simp [hg, hc, Tally.value]
  | some t =>
    have hmem : pieCategory p ∈ (categoryCounts ps).names := by
      rw [← getOwn_isSome_iff, hg]
      rfl
    rw [put_of_mem _ _ _ hmem]
    have h := sum_modify Tally.value (categoryCounts ps) (pieCategory p)
      (fun _ => tallyNext (categoryCounts ps) (pieCategory p)) t
      (nodup_names_categoryCounts ps) hg
    cases t with
    | text =>
      rw [getOwn_categoryCounts] at hg
      exact absurd hg (tallyOf_not_text _ _ hc)
    | count n =>
      have hnext : tallyNext (categoryCounts ps) (pieCategory p) = Tally.count (n + 1) := by
        unfold tallyNext
        rw [hg]
      rw [hnext] at h ⊢
      have hv1 : (Tally.count n).value = n := rfl
      have hv2 : (Tally.count (n + 1)).value = n + 1 := rfl
      rw [hv1, hv2] at h
      omega

theorem value_sum_categoryCounts (ps : List Product)
    (hc : ∀ p ∈ ps, pieCategory p ∉ inheritedNames) :
    ((categoryCounts ps).map (fun e => e.2.value)).sum = ps.length := by
  induction ps using List.reverseRecOn with
  | nil => rfl
  | append_singleton ps p ih =>
    rw [categoryCounts_append_single, value_sum_pieStep ps p (hc p (by simp)),
      ih (fun q hq => hc q (by simp [hq]))]
    simp

/-! ## Order of enumeration -/

theorem names_filter {V : Type} (o : Obj V) (q : String → Bool) :
    (o.filter (fun e => q e.1)).map Prod.fst = o.names.filter q := by
  unfold Obj.names
  induction o with
  | nil => rfl
  | cons e o ih =>
    simp only [List.filter_cons, List.map_cons]
    by_cases h : q e.1 = true
    · simp [h, ih]
    · simp [h, ih]

theorem keys_shape {V : Type} (o : Obj V) :
    ∃ idx : List String,
      Object.keys o = idx ++ o.names.filter (fun c => !isArrayIndex c)
        ∧ (∀ c ∈ idx, isArrayIndex c = true)
        ∧ idx.Pairwise (fun a b => (arrayIndex? a).getD 0 ≤ (arrayIndex? b).getD 0)
        ∧ idx.Perm (o.names.filter isArrayIndex) := by
  refine ⟨((o.filter (fun e => isArrayIndex e.1)).insertionSort indexLE).map Prod.fst,
    ?_, ?_, ?_, ?_⟩
  · unfold Object.keys Obj.ownEntries
    rw [List.map_append, names_filter o (fun c => !isArrayIndex c)]
  · intro c hc
    obtain ⟨e, he, rfl⟩ := List.mem_map.1 hc
    have := (List.perm_insertionSort indexLE _).mem_iff.1 he
    simpa using (List.mem_filter.1 this).2
  · rw [List.pairwise_map]
    exact List.sorted_insertionSort indexLE _
  · rw [← names_filter o isArrayIndex]
    exact (List.perm_insertionSort indexLE _).map Prod.fst

/-! ## The two pivots as one -/

theorem prepareBarChartData_eq (g : Obj Group) :
    prepareBarChartData g = pivotRows (fun x => x.totalSales) Cell.str Cell.num g := rfl

theorem prepareLineChartData_eq (g : Obj Group) :
    prepareLineChartData g
      = pivotRows (fun x => Num.ofInt x.totalItems) Cell.str Cell.num g := rfl

theorem names_mapValues {V W : Type} (φ : V → W) (o : Obj V) :
    (Obj.mapValues φ o).names = o.names := by
  simp [Obj.mapValues, Obj.names, List.map_map, Function.comp_def]

theorem getOwn_mapValues {V W : Type} (φ : V → W) (o : Obj V) (k : String) :
    Obj.getOwn (Obj.mapValues φ o) k = (Obj.getOwn o k).map φ := by
  induction o with
  | nil => rfl
  | cons e o ih =>
    obtain ⟨a, v⟩ := e
    have hcons : Obj.mapValues φ ((a, v) :: o) = (a, φ v) :: Obj.mapValues φ o := rfl
    rw [hcons, getOwn_cons, getOwn_cons, ih]
    by_cases h : a = k <;> simp [h]

theorem modify_mapValues {V W : Type} (φ : V → W) (o : Obj V) (k : String)
    (f : V → V) (f' : W → W) (hf : ∀ v, f' (φ v) = φ (f v)) :
    Obj.modify (Obj.mapValues φ o) k f' = Obj.mapValues φ (Obj.modify o k f) := by
  unfold Obj.modify Obj.mapValues
  rw [List.map_map, List.map_map]
  apply List.map_congr_left
  intro e _
  by_cases h : e.1 = k <;> simp [h, hf]

theorem put_mapValues {V W : Type} (φ : V → W) (o : Obj V) (k : String) (v : V) :
    Obj.put (Obj.mapValues φ o) k (φ v) = Obj.mapValues φ (Obj.put o k v) := by
  by_cases h : k ∈ o.names
  · rw [put_of_mem o k v h, put_of_mem _ k _ (by rw [names_mapValues]; exact h)]
    exact modify_mapValues φ o k _ _ (fun _ => rfl)
  · rw [put_of_none o k v ((getOwn_eq_none_iff o k).2 h),
      put_of_none _ k _ ((getOwn_eq_none_iff _ k).2 (by rw [names_mapValues]; exact h))]
    simp [Obj.mapValues]

theorem assign_mapValues {V W : Type} (φ : V → W) (o : Obj V) (k : String) (v : V) :
    Obj.assign (Obj.mapValues φ o) k (φ v) = Obj.mapValues φ (Obj.assign o k v) := by
  unfold Obj.assign
  split
  · rfl
  · exact put_mapValues φ o k v

theorem filter_mapValues {V W : Type} (φ : V → W) (o : Obj V) (q : String → Bool) :
    (Obj.mapValues φ o).filter (fun e => q e.1)
      = Obj.mapValues φ (o.filter (fun e => q e.1)) := by
  unfold Obj.mapValues
  rw [List.filter_map]
  rfl

theorem insertionSort_mapValues {V W : Type} (φ : V → W) (l : Obj V) :
    List.insertionSort indexLE (Obj.mapValues φ l)
      = Obj.mapValues φ (List.insertionSort indexLE l) := by
  unfold Obj.mapValues
  exact (List.map_insertionSort indexLE indexLE (fun e : String × V => (e.1, φ e.2)) l
    (fun _ _ _ _ => Iff.rfl)).symm

theorem ownEntries_mapValues {V W : Type} (φ : V → W) (o : Obj V) :
    (Obj.mapValues φ o).ownEntries = Obj.mapValues φ o.ownEntries := by
  unfold Obj.ownEntries
  rw [filter_mapValues φ o isArrayIndex, filter_mapValues φ o (fun k => !isArrayIndex k),
    insertionSort_mapValues]
  simp [Obj.mapValues]

theorem keys_mapValues {V W : Type} (φ : V → W) (o : Obj V) :
    Object.keys (Obj.mapValues φ o) = Object.keys o := by
  unfold Object.keys
  rw [ownEntries_mapValues]
  exact names_mapValues φ _

theorem pivotStep_mapValues {V W : Type} (φ : V → W) (f : Group → V) (md : Obj (Obj V))
    (item : Group) :
    pivotStep (fun g => φ (f g)) (Obj.mapValues (Obj.mapValues φ) md) item
      = Obj.mapValues (Obj.mapValues φ) (pivotStep f md item) := by
  unfold pivotStep
  have hnone : (Obj.getOwn (Obj.mapValues (Obj.mapValues φ) md) item.month).isNone
      = (Obj.getOwn md item.month).isNone := by
    rw [getOwn_mapValues]
    cases Obj.getOwn md item.month <;> rfl
  simp only [hnone]
  have hput : Obj.put (Obj.mapValues (Obj.mapValues φ) md) item.month []
      = Obj.mapValues (Obj.mapValues φ) (Obj.put md item.month []) :=
    put_mapValues (Obj.mapValues φ) md item.month []
  by_cases h : (Obj.getOwn md item.month).isNone = true
  · simp only [h, if_true, hput]
    exact modify_mapValues _ _ _ _ _ (fun inner => assign_mapValues φ inner _ _)
  · simp only [h, Bool.false_eq_true, if_false]
    exact modify_mapValues _ _ _ _ _ (fun inner => assign_mapValues φ inner _ _)

theorem monthlyDataOf_mapValues {V W : Type} (φ : V → W) (f : Group → V) (items : List Group) :
    monthlyDataOf (fun g => φ (f g)) items
      = Obj.mapValues (Obj.mapValues φ) (monthlyDataOf f items) := by
  induction items using List.reverseRecOn with
  | nil => rfl
  | append_singleton items g ih =>
    unfold monthlyDataOf at ih ⊢
    rw [List.foldl_append, List.foldl_append, List.foldl_cons, List.foldl_cons, List.foldl_nil,
      List.foldl_nil, ih]
    exact pivotStep_mapValues φ f _ g

theorem foldl_put_mapValues {V C D : Type} (ψ : C → D) (num : V → C) (l : Obj V) (row : Obj C) :
    l.foldl (fun r e => Obj.put r e.1 (ψ (num e.2))) (Obj.mapValues ψ row)
      = Obj.mapValues ψ (l.foldl (fun r e => Obj.put r e.1 (num e.2)) row) := by
  induction l generalizing row with
  | nil => rfl
  | cons e l ih =>
    rw [List.foldl_cons, List.foldl_cons, put_mapValues, ih]

theorem spreadWith_mapValues {V W C D : Type} (φ : V → W) (ψ : C → D) (lab : String → C)
    (num : V → C) (lab' : String → D) (num' : W → D) (hlab : ∀ s, ψ (lab s) = lab' s)
    (hnum : ∀ v, ψ (num v) = num' (φ v)) (month : String) (inner : Obj V) :
    spreadWith lab' num' month (Obj.mapValues φ inner)
      = Obj.mapValues ψ (spreadWith lab num month inner) := by
  unfold spreadWith
  rw [ownEntries_mapValues, ← foldl_put_mapValues]
  unfold Obj.mapValues
  rw [List.foldl_map]
  simp only [List.map_cons, List.map_nil, hlab, hnum]

theorem pivotRows_mapValues {V W C D : Type} (φ : V → W) (ψ : C → D) (f : Group → V)
    (lab : String → C) (num : V → C) (lab' : String → D) (num' : W → D)
    (hlab : ∀ s, ψ (lab s) = lab' s) (hnum : ∀ v, ψ (num v) = num' (φ v))
    (g : Obj Group) :
    pivotRows (fun x => φ (f x)) lab' num' g
      = (pivotRows f lab num g).map (Obj.mapValues ψ) := by
  unfold pivotRows
  rw [monthlyDataOf_mapValues, keys_mapValues, List.map_map]
  apply List.map_congr_left
  intro month _
  rw [getOwn_mapValues, Function.comp_apply,
    ← spreadWith_mapValues φ ψ lab num lab' num' hlab hnum]
  cases Obj.getOwn (monthlyDataOf f (Object.values g)) month <;> rfl

/-! ## Where the entries of a row come from -/

theorem mem_modify {V : Type} (o : Obj V) (k : String) (f : V → V) (e : String × V)
    (h : e ∈ Obj.modify o k f) : (e ∈ o ∧ e.1 ≠ k) ∨ ∃ v, (k, v) ∈ o ∧ e = (k, f v) := by
  unfold Obj.modify at h
  obtain ⟨e', he', rfl⟩ := List.mem_map.1 h
  by_cases hk : e'.1 = k
  · right
    refine ⟨e'.2, ?_, ?_⟩
    · rw [← hk]
      exact he'
    · simp [hk]
  · left
    simp only [hk, beq_iff_eq, if_false]
    exact ⟨he', hk⟩

theorem mem_put {V : Type} (o : Obj V) (k : String) (v : V) (e : String × V)
    (h : e ∈ Obj.put o k v) : e ∈ o ∨ e = (k, v) := by
  by_cases hk : k ∈ o.names
  · rw [put_of_mem o k v hk] at h
    rcases mem_modify o k _ e h with h1 | ⟨_, _, h2⟩
    · exact Or.inl h1.1
    · exact Or.inr h2
  · rw [put_of_none o k v ((getOwn_eq_none_iff o k).2 hk)] at h
    simpa using h

theorem mem_assign {V : Type} (o : Obj V) (k : String) (v : V) (e : String × V)
    (h : e ∈ Obj.assign o k v) : e ∈ o ∨ e = (k, v) := by
  unfold Obj.assign at h
  split at h
  · exact Or.inl h
  · exact mem_put o k v e h

theorem monthlyDataOf_append_single {W : Type} (f : Group → W) (items : List Group)
    (g : Group) :
    monthlyDataOf f (items ++ [g]) = pivotStep f (monthlyDataOf f items) g := by
  simp [monthlyDataOf, List.foldl_append]

theorem mem_pivotStep {W : Type} (f : Group → W) (md : Obj (Obj W)) (g : Group)
    (m : String) (inner : Obj W) (h : (m, inner) ∈ pivotStep f md g) :
    (m, inner) ∈ md ∨
      (m = g.month ∧ ∃ inner0, (inner0 = [] ∨ (m, inner0) ∈ md)
        ∧ inner = Obj.assign inner0 g.category (f g)) := by
  unfold pivotStep at h
  rcases mem_modify _ _ _ _ h with ⟨h1, hne⟩ | ⟨v, hv, heq⟩
  · split at h1
    · rcases mem_put _ _ _ _ h1 with h2 | h2
      · exact Or.inl h2
      · cases h2
        exact absurd rfl hne
    · exact Or.inl h1
  · cases heq
    right
    refine ⟨rfl, v, ?_, rfl⟩
    split at hv
    · rcases mem_put _ _ _ _ hv with h2 | h2
      · exact Or.inr h2
      · cases h2
        exact Or.inl rfl
    · exact Or.inr hv

theorem monthlyDataOf_entries (items : List Group) (m : String) (inner : Obj Group)
    (h : (m, inner) ∈ monthlyDataOf (fun g => g) items) :
    ∀ e ∈ inner, e.2 ∈ items ∧ e.2.month = m ∧ e.2.category = e.1 := by
  induction items using List.reverseRecOn generalizing m inner with
  | nil => simp [monthlyDataOf] at h
  | append_singleton items g ih =>
    rw [monthlyDataOf_append_single] at h
    rcases mem_pivotStep _ _ _ _ _ h with h1 | ⟨hm, inner0, h0, rfl⟩
    · intro e he
      obtain ⟨a, b, c⟩ := ih m inner h1 e he
      exact ⟨List.mem_append_left _ a, b, c⟩
    · intro e he
      rcases mem_assign _ _ _ _ he with h2 | h2
      · rcases h0 with h0 | h0
        · subst h0
          cases h2
        · obtain ⟨a, b, c⟩ := ih m inner0 h0 e h2
          exact ⟨List.mem_append_left _ a, b, c⟩
      · subst h2
        exact ⟨by simp, hm.symm, rfl⟩

theorem mem_foldl_put {V C : Type} (num : V → C) (l : Obj V) (row : Obj C) (e : String × C)
    (h : e ∈ l.foldl (fun r x => Obj.put r x.1 (num x.2)) row) :
    e ∈ row ∨ ∃ x ∈ l, e = (x.1, num x.2) := by
  induction l generalizing row with
  | nil => exact Or.inl h
  | cons x l ih =>
    rw [List.foldl_cons] at h
    rcases ih _ h with h1 | ⟨y, hy, rfl⟩
    · rcases mem_put _ _ _ _ h1 with h2 | h2
      · exact Or.inl h2
      · exact Or.inr ⟨x, List.mem_cons_self _ _, h2⟩
    · exact Or.inr ⟨y, List.mem_cons_of_mem _ hy, rfl⟩

theorem mem_spreadWith {V C : Type} (lab : String → C) (num : V → C) (month : String)
    (inner : Obj V) (e : String × C) (h : e ∈ spreadWith lab num month inner) :
    e = ("name", lab month) ∨ ∃ x ∈ inner, e = (x.1, num x.2) := by
  unfold spreadWith at h
  rcases mem_foldl_put num _ _ e h with h1 | ⟨x, hx, rfl⟩
  · left
    simpa using h1
  · exact Or.inr ⟨x, (ownEntries_perm inner).mem_iff.1 hx, rfl⟩

theorem pivotRows_entries (g : Obj Group) (row : Obj (String ⊕ Group))
    (h : row ∈ pivotRows (fun x => x) Sum.inl Sum.inr g) :
    ∃ month, ∀ e ∈ row,
      e = ("name", Sum.inl month) ∨
        ∃ x ∈ Object.values g, x.month = month ∧ x.category = e.1 ∧ e.2 = Sum.inr x := by
  unfold pivotRows at h
  obtain ⟨month, -, rfl⟩ := List.mem_map.1 h
  refine ⟨month, fun e he => ?_⟩
  rcases mem_spreadWith _ _ _ _ e he with h1 | ⟨x, hx, rfl⟩
  · exact Or.inl h1
  · right
    cases hg : Obj.getOwn (monthlyDataOf (fun x => x) (Object.values g)) month with
    | none => rw [hg] at hx; cases hx
    | some inner =>
      rw [hg] at hx
      obtain ⟨a, b, c⟩ := monthlyDataOf_entries _ month inner (getOwn_mem _ _ _ hg) x hx
      exact ⟨x.2, a, b, c, rfl⟩

/-! ## The cells of the monthly data -/

theorem getOwn_pivotStep {W : Type} (f : Group → W) (md : Obj (Obj W)) (g : Group)
    (m : String) :
    Obj.getOwn (pivotStep f md g) m =
      if m = g.month then some (Obj.assign ((Obj.getOwn md m).getD []) g.category (f g))
      else Obj.getOwn md m := by
  unfold pivotStep
  rw [getOwn_modify]
  by_cases hm : m = g.month
  · subst hm
    simp only [if_true]
    cases hg : Obj.getOwn md g.month with
    | none => simp [getOwn_put]
    | some inner => simp [hg]
  · simp only [hm, if_false]
    cases hg : Obj.getOwn md g.month with
    | none => simp [getOwn_put, hm]
    | some inner => simp

theorem names_pivotStep {W : Type} (f : Group → W) (md : Obj (Obj W)) (g : Group) :
    (pivotStep f md g).names =
      if g.month ∈ md.names then md.names else md.names ++ [g.month] := by
  unfold pivotStep
  rw [names_modify]
  by_cases h : g.month ∈ md.names
  · obtain ⟨v, hv⟩ := Option.isSome_iff_exists.1 ((getOwn_isSome_iff md g.month).2 h)
    simp [hv, h]
  · have hn := (getOwn_eq_none_iff md g.month).2 h
    simp only [hn, Option.isNone_none, if_true, names_put]

theorem names_monthlyDataOf {W : Type} (f : Group → W) (items : List Group) :
    (monthlyDataOf f items).names = firstOccurrences (items.map (fun g => g.month)) := by
  induction items using List.reverseRecOn with
  | nil => rfl
  | append_singleton items g ih =>
    rw [monthlyDataOf_append_single, names_pivotStep, ih, List.map_append, List.map_singleton,
      firstOccurrences_append_single]
    simp only [mem_firstOccurrences]

theorem nodup_inner {W : Type} (f : Group → W) (items : List Group) (m : String) :
    ((Obj.getOwn (monthlyDataOf f items) m).getD []).names.Nodup := by
  induction items using List.reverseRecOn with
  | nil => exact List.nodup_nil
  | append_singleton items g ih =>
    rw [monthlyDataOf_append_single, getOwn_pivotStep]
    by_cases hm : m = g.month
    · simp only [hm, if_true, Option.getD_some]
      exact names_assign_nodup _ _ _ (hm ▸ ih)
    · simp only [hm, if_false]
      exact ih

theorem getOwn_assign {V : Type} (o : Obj V) (k : String) (v : V) (k' : String) :
    Obj.getOwn (Obj.assign o k v) k' =
      if k = "__proto__" then Obj.getOwn o k'
      else if k' = k then some v else Obj.getOwn o k' := by
  unfold Obj.assign
  by_cases h : k = "__proto__"
  · simp [h]
  · simp only [beq_iff_eq, h, if_false, getOwn_put]

theorem getOwn_monthlyDataOf {W : Type} (f : Group → W) (items : List Group) (m c : String) :
    Obj.getOwn ((Obj.getOwn (monthlyDataOf f items) m).getD []) c = cellOf f m c items := by
  induction items using List.reverseRecOn with
  | nil =>
    unfold cellOf
    by_cases hc : c = "__proto__" <;> simp [hc, monthlyDataOf, Obj.getOwn]
  | append_singleton items g ih =>
    rw [monthlyDataOf_append_single, getOwn_pivotStep]
    have hfilter : (items ++ [g]).filter (fun x => x.month == m && x.category == c)
        = items.filter (fun x => x.month == m && x.category == c)
          ++ (if g.month = m ∧ g.category = c then [g] else []) := by
      rw [List.filter_append]
      by_cases h : g.month = m ∧ g.category = c
      · simp [h]
      · rw [if_neg h]
        have : (g.month == m && g.category == c) = false := by
          rw [Bool.eq_false_iff]
          intro hb
          simp only [Bool.and_eq_true, beq_iff_eq] at hb
          exact h hb
        simp [this]
    by_cases hm : m = g.month
    · subst hm
      simp only [if_true, Option.getD_some, getOwn_assign, ih]
      unfold cellOf
      rw [hfilter]
      by_cases hp : g.category = "__proto__"
      · simp only [hp, if_true]
        by_cases hc : c = "__proto__"
        · simp [hc]
        · have : ¬ "__proto__" = c := fun h => hc h.symm
          simp [hc, this]
      · simp only [hp, if_false]
        by_cases hc : c = g.category
        · subst hc
          simp [hp]
        · have hc' : ¬ g.category = c := fun h => hc h.symm
          simp [hc, hc']
    · have hm' : ¬ g.month = m := fun h => hm h.symm
      simp only [hm, if_false, ih]
      unfold cellOf
      rw [hfilter]
      simp [hm']

theorem cellOf_eq_some_iff {W : Type} (f : Group → W) (m c : String) (items : List Group)
    (hpw : items.Pairwise (fun a b => ¬ (a.month = b.month ∧ a.category = b.category)))
    (hproto : ∀ g ∈ items, g.category ≠ "__proto__") (w : W) :
    cellOf f m c items = some w ↔ ∃ g ∈ items, g.month = m ∧ g.category = c ∧ w = f g := by
  unfold cellOf
  have hsub : (items.filter (fun g => g.month == m && g.category == c)).Pairwise
      (fun a b => ¬ (a.month = b.month ∧ a.category = b.category)) :=
    hpw.sublist (List.filter_sublist _)
  have hmem : ∀ g, g ∈ items.filter (fun g => g.month == m && g.category == c)
      ↔ g ∈ items ∧ g.month = m ∧ g.category = c := by
    intro g
    simp [List.mem_filter]
  by_cases hc : c = "__proto__"
  · simp only [hc, if_true]
    constructor
    · intro h
      cases h
    · rintro ⟨g, hg, -, hcat, -⟩
      exact absurd hcat (hproto g hg)
  · simp only [hc, if_false]
    cases hl : items.filter (fun g => g.month == m && g.category == c) with
    | nil =>
      simp only [List.getLast?_nil, Option.map_none']
      constructor
      · intro h
        cases h
      · rintro ⟨g, hg, h1, h2, -⟩
        have := (hmem g).2 ⟨hg, h1, h2⟩
        rw [hl] at this
        cases this
    | cons a rest =>
      cases rest with
      | nil =>
        have ha := (hmem a).1 (hl ▸ List.mem_cons_self _ _)
        simp only [List.getLast?_singleton, Option.map_some', Option.some.injEq]
        constructor
        · intro h
          exact ⟨a, ha.1, ha.2.1, ha.2.2, h.symm⟩
        · rintro ⟨g, hg, h1, h2, rfl⟩
          have := (hmem g).2 ⟨hg, h1, h2⟩
          rw [hl] at this
          simp only [List.mem_singleton] at this
          rw [this]
      | cons b rest' =>
        exfalso
        rw [hl] at hsub
        have ha := (hmem a).1 (hl ▸ List.mem_cons_self _ _)
        have hb := (hmem b).1 (hl ▸ List.mem_cons_of_mem _ (List.mem_cons_self _ _))
        exact (List.pairwise_cons.1 hsub).1 b (List.mem_cons_self _ _)
          ⟨ha.2.1.trans hb.2.1.symm, ha.2.2.trans hb.2.2.symm⟩

/-! ## Lookups in a row -/

theorem getOwn_perm {V : Type} (o o' : Obj V) (h : o.Perm o') (hn : o.names.Nodup)
    (k : String) : Obj.getOwn o k = Obj.getOwn o' k := by
  have hn' : o'.names.Nodup := ((h.map Prod.fst).nodup_iff).1 hn
  cases hg : Obj.getOwn o k with
  | none =>
    have h1 := (getOwn_eq_none_iff o k).1 hg
    have h2 : k ∉ o'.names := fun hk => h1 (((h.map Prod.fst).mem_iff).2 hk)
    exact ((getOwn_eq_none_iff o' k).2 h2).symm
  | some v =>
    have h1 := getOwn_mem o k v hg
    exact (getOwn_of_mem o' hn' k v (h.mem_iff.1 h1)).symm

theorem getOwn_foldl_put {V C : Type} (num : V → C) (l : Obj V) (hn : l.names.Nodup)
    (row : Obj C) (k : String) :
    Obj.getOwn (l.foldl (fun r x => Obj.put r x.1 (num x.2)) row) k =
      match Obj.getOwn l k with
      | some v => some (num v)
      | none => Obj.getOwn row k := by
  induction l generalizing row with
  | nil => rfl
  | cons x l ih =>
    obtain ⟨a, v⟩ := x
    simp only [Obj.names, List.map_cons, List.nodup_cons] at hn
    rw [List.foldl_cons, ih hn.2, getOwn_cons, getOwn_put]
    by_cases hk : a = k
    · subst hk
      have : Obj.getOwn l a = none := (getOwn_eq_none_iff l a).2 hn.1
      simp [this]
    · have hk' : ¬ k = a := fun h => hk h.symm
      simp [hk, hk']

theorem getOwn_spreadWith {V C : Type} (lab : String → C) (num : V → C) (month : String)
    (inner : Obj V) (hn : inner.names.Nodup) (k : String) :
    Obj.getOwn (spreadWith lab num month inner) k =
      match Obj.getOwn inner k with
      | some v => some (num v)
      | none => if k = "name" then some (lab month) else none := by
  unfold spreadWith
  rw [getOwn_foldl_put num _ (nodup_names_ownEntries inner hn),
    getOwn_perm _ _ (ownEntries_perm inner) (nodup_names_ownEntries inner hn)]
  cases Obj.getOwn inner k with
  | some v => rfl
  | none =>
    simp only [getOwn_cons]
    by_cases hk : k = "name"
    · simp [hk]
    · have : ¬ "name" = k := fun h => hk h.symm
      simp [hk, this, Obj.getOwn]

/-! ## The groups of a grouping -/

theorem values_groupBy (H : Host) (ps : List Product) :
    Object.values (groupByCategoryAndMonth H ps)
      = (groupByCategoryAndMonth H ps).map Prod.snd := by
  unfold Object.values
  rw [ownEntries_of_no_index]
  intro k hk
  rw [names_groupBy, mem_firstOccurrences] at hk
  obtain ⟨p, -, rfl⟩ := List.mem_map.1 hk
  exact groupKey_not_index H p

theorem group_of_mem (H : Host) (ps : List Product) (k : String) (g : Group)
    (h : (k, g) ∈ groupByCategoryAndMonth H ps) :
    ∃ p ∈ ps, groupKey H p = k ∧ g.category = groupCategory p
      ∧ g.month = H.monthLabel p.DateOfSale := by
  have hg := getOwn_of_mem _ (nodup_names_groupBy H ps) k g h
  rw [getOwn_groupBy] at hg
  unfold groupOf at hg
  cases hr : recordsOf H k ps with
  | nil => simp [hr] at hg
  | cons p rest =>
    have hp : p ∈ recordsOf H k ps := hr ▸ List.mem_cons_self _ _
    simp only [hr, Option.some.injEq] at hg
    refine ⟨p, (List.mem_filter.1 hp).1, mem_recordsOf H k ps p hp, ?_, ?_⟩
    · rw [← hg]
    · rw [← hg]

theorem group_pairs_distinct (H : Host) (ps : List Product) :
    (Object.values (groupByCategoryAndMonth H ps)).Pairwise
      (fun a b => ¬ (a.month = b.month ∧ a.category = b.category)) := by
  rw [values_groupBy, List.pairwise_map]
  have hn := nodup_names_groupBy H ps
  unfold Obj.names at hn
  rw [List.Nodup, List.pairwise_map] at hn
  refine hn.imp_of_mem ?_
  rintro ⟨k1, g1⟩ ⟨k2, g2⟩ h1 h2 hne ⟨hm, hc⟩
  obtain ⟨p1, -, hk1, hc1, hm1⟩ := group_of_mem H ps k1 g1 h1
  obtain ⟨p2, -, hk2, hc2, hm2⟩ := group_of_mem H ps k2 g2 h2
  apply hne
  show k1 = k2
  rw [← hk1, ← hk2]
  unfold groupKey
  rw [← hc1, ← hm1, ← hc2, ← hm2]
  simp only at hm hc
  rw [hm, hc]

theorem keys_monthlyDataOf {W : Type} (f : Group → W) (H : Host) (ps : List Product) :
    Object.keys (monthlyDataOf f (Object.values (groupByCategoryAndMonth H ps)))
      = firstOccurrences
          ((Object.values (groupByCategoryAndMonth H ps)).map (fun g => g.month)) := by
  unfold Object.keys
  rw [ownEntries_of_no_index]
  · exact names_monthlyDataOf f _
  · intro k hk
    rw [names_monthlyDataOf, mem_firstOccurrences, values_groupBy] at hk
    obtain ⟨g, hg, rfl⟩ := List.mem_map.1 hk
    obtain ⟨⟨k', g'⟩, hmem, rfl⟩ := List.mem_map.1 hg
    obtain ⟨p, -, -, -, hm⟩ := group_of_mem H ps k' g' hmem
    have hplain := monthLabel_plain H p.DateOfSale
    unfold plainLabel at hplain
    simp only [Bool.and_eq_true, Bool.not_eq_true'] at hplain
    show isArrayIndex g'.month = false
    rw [hm]
    exact hplain.1.2

/-! ## Defaulting of the category -/

theorem orDefault_of_absent (x : Option String) (dflt : String)
    (h : x = none ∨ x = some "") : orDefault x dflt = dflt := by
  rcases h with h | h <;> subst h <;> rfl

theorem orDefault_of_text (c dflt : String) (h : c ≠ "") : orDefault (some c) dflt = c := by
  unfold orDefault
  simp [h]

theorem group_at_key (H : Host) (ps : List Product) (p : Product) (hp : p ∈ ps) :
    ∃ g, Obj.getOwn (groupByCategoryAndMonth H ps) (groupKey H p) = some g
      ∧ g.category = groupCategory p ∧ g.month = H.monthLabel p.DateOfSale
      ∧ g.totalSales = (recordsOf H (groupKey H p) ps).foldl
          (fun acc q => jsAdd acc q.Price) (Num.finite 0)
      ∧ g.totalItems = (recordsOf H (groupKey H p) ps).length
      ∧ p ∈ recordsOf H (groupKey H p) ps := by
  have hmem : p ∈ recordsOf H (groupKey H p) ps := by
    unfold recordsOf
    exact List.mem_filter.2 ⟨hp, by simp⟩
  rw [getOwn_groupBy]
  unfold groupOf
  cases hr : recordsOf H (groupKey H p) ps with
  | nil => rw [hr] at hmem; cases hmem
  | cons q rest =>
    have hq := mem_recordsOf H _ ps q (hr ▸ List.mem_cons_self _ _)
    obtain ⟨hc, hm⟩ := groupKey_inj H q p hq
    exact ⟨_, rfl, hc, hm, rfl, rfl, hr ▸ hmem⟩

theorem tallyOf_of_mem (ps : List Product) (p : Product) (hp : p ∈ ps)
    (hc : pieCategory p ∉ inheritedNames) :
    tallyOf (pieCategory p) ps
      = some (Tally.count (ps.countP (fun q => pieCategory q == pieCategory p))) := by
  have hproto : pieCategory p ≠ "__proto__" := fun h => hc (h ▸ proto_mem_inheritedNames)
  have hi : inheritedNames.contains (pieCategory p) = false := by
    rw [Bool.eq_false_iff]
    intro h
    exact hc (List.elem_iff.1 h)
  have hmem : p ∈ ps.filter (fun q => pieCategory q == pieCategory p) :=
    List.mem_filter.2 ⟨hp, by simp⟩
  unfold tallyOf
  rw [List.countP_eq_length_filter]
  simp only [hproto, if_false]
  cases hlen : (ps.filter (fun q => pieCategory q == pieCategory p)).length with
  | zero =>
    rw [List.length_eq_zero] at hlen
    rw [hlen] at hmem
    cases hmem
  | succ n => simp [hc]

theorem pie_row_of_mem (ps : List Product) (p : Product) (hp : p ∈ ps)
    (hc : pieCategory p ∉ inheritedNames) :
    (pieCategory p, Tally.count (ps.countP (fun q => pieCategory q == pieCategory p)))
      ∈ preparePieChartData ps := by
  rw [preparePieChartData_eq, (ownEntries_perm _).mem_iff]
  apply getOwn_mem
  rw [getOwn_categoryCounts]
  exact tallyOf_of_mem ps p hp hc

theorem pie_name_of_mem (ps : List Product) (p : Product) (hp : p ∈ ps)
    (hc : pieCategory p ≠ "__proto__") :
    pieCategory p ∈ (preparePieChartData ps).map Prod.fst := by
  rw [preparePieChartData_eq, ((ownEntries_perm _).map Prod.fst).mem_iff]
  have hn := names_categoryCounts ps
  unfold Obj.names at hn
  rw [hn, mem_firstOccurrences, List.mem_filter]
  exact ⟨List.mem_map_of_mem _ hp, by simpa using hc⟩

/-! ## The first row of a pivot -/

theorem firstOccurrences_eq_nil (l : List String) : firstOccurrences l = [] ↔ l = [] := by
  cases l with
  | nil => simp [firstOccurrences]
  | cons a l => simp [firstOccurrences]

theorem groupBy_eq_nil (H : Host) (ps : List Product) :
    groupByCategoryAndMonth H ps = [] ↔ ps = [] := by
  constructor
  · intro h
    have hn := names_groupBy H ps
    rw [h] at hn
    have := (firstOccurrences_eq_nil _).1 hn.symm
    simpa using this
  · rintro rfl
    rfl

theorem pivotRows_eq_nil {W C : Type} (f : Group → W) (lab : String → C) (num : W → C)
    (H : Host) (ps : List Product) :
    pivotRows f lab num (groupByCategoryAndMonth H ps) = [] ↔ ps = [] := by
  unfold pivotRows
  rw [List.map_eq_nil_iff, keys_monthlyDataOf, firstOccurrences_eq_nil, List.map_eq_nil_iff,
    values_groupBy, List.map_eq_nil_iff]
  exact groupBy_eq_nil H ps

theorem first_isSome_iff {α : Type} (l : List α) : (l[0]?).isSome = true ↔ l ≠ [] := by
  cases l <;> simp

theorem seriesOf_isSome_iff (rows : List (Obj Cell)) :
    (seriesOf rows).isSome = true ↔ rows ≠ [] := by
  unfold seriesOf
  cases rows <;> simp

theorem productGraphs_isSome_iff (H : Host) (ps : List Product) :
    (ProductGraphs H ps).isSome = true ↔ ps ≠ [] := by
  have hb := pivotRows_eq_nil (fun x : Group => x.totalSales) Cell.str Cell.num H ps
  have hl := pivotRows_eq_nil (fun x : Group => Num.ofInt x.totalItems) Cell.str Cell.num H ps
  rw [← prepareBarChartData_eq] at hb
  rw [← prepareLineChartData_eq] at hl
  by_cases hps : ps = []
  · subst hps
    have h0 : ProductGraphs H [] = none := rfl
    simp [h0]
  · have h1 := (seriesOf_isSome_iff _).2 (fun h => hps (hb.1 h))
    have h2 := (seriesOf_isSome_iff _).2 (fun h => hps (hl.1 h))
    obtain ⟨bars, hbars⟩ := Option.isSome_iff_exists.1 h1
    obtain ⟨lines, hlines⟩ := Option.isSome_iff_exists.1 h2
    unfold ProductGraphs
    simp [hbars, hlines, hps]

/-! ## Rows of a grouping without a category `name` -/

theorem cellOf_some_mem {W : Type} (f : Group → W) (m c : String) (items : List Group)
    (w : W) (h : cellOf f m c items = some w) :
    ∃ g ∈ items, g.month = m ∧ g.category = c ∧ w = f g := by
  unfold cellOf at h
  split at h
  · cases h
  · rw [Option.map_eq_some'] at h
    obtain ⟨g, hg, rfl⟩ := h
    have hmem := List.mem_of_getLast?_eq_some hg
    obtain ⟨h1, h2⟩ := List.mem_filter.1 hmem
    simp only [Bool.and_eq_true, beq_iff_eq] at h2
    exact ⟨g, h1, h2.1, h2.2, rfl⟩

theorem group_category_of_mem (H : Host) (ps : List Product) (g : Group)
    (hg : g ∈ Object.values (groupByCategoryAndMonth H ps)) :
    ∃ p ∈ ps, g.category = groupCategory p := by
  rw [values_groupBy] at hg
  obtain ⟨⟨k, g'⟩, hmem, rfl⟩ := List.mem_map.1 hg
  obtain ⟨p, hp, -, hc, -⟩ := group_of_mem H ps k g' hmem
  exact ⟨p, hp, hc⟩

theorem pivotRows_row (H : Host) (ps : List Product)
    (hname : ∀ p ∈ ps, groupCategory p ≠ "name") (row : Obj (String ⊕ Group))
    (h : row ∈ pivotRows (fun x => x) Sum.inl Sum.inr (groupByCategoryAndMonth H ps)) :
    ∃ month, Obj.getOwn row "name" = some (Sum.inl month) ∧
      ∀ e ∈ row, e = ("name", Sum.inl month) ∨
        (e.1 ≠ "name" ∧ ∃ x ∈ Object.values (groupByCategoryAndMonth H ps),
          x.month = month ∧ x.category = e.1 ∧ e.2 = Sum.inr x) := by
  have hgroups : ∀ g ∈ Object.values (groupByCategoryAndMonth H ps), g.category ≠ "name" := by
    intro g hg
    obtain ⟨p, hp, hc⟩ := group_category_of_mem H ps g hg
    rw [hc]
    exact hname p hp
  unfold pivotRows at h
  obtain ⟨month, -, rfl⟩ := List.mem_map.1 h
  refine ⟨month, ?_, fun e he => ?_⟩
  · rw [getOwn_spreadWith _ _ _ _ (nodup_inner _ _ month), getOwn_monthlyDataOf]
    cases hc : cellOf (fun x : Group => x) month "name"
        (Object.values (groupByCategoryAndMonth H ps)) with
    | none => simp
    | some w =>
      obtain ⟨g, hg, -, hcat, -⟩ := cellOf_some_mem _ _ _ _ w hc
      exact absurd hcat (hgroups g hg)
  · rcases mem_spreadWith _ _ _ _ e he with h1 | ⟨x, hx, rfl⟩
    · exact Or.inl h1
    · right
      cases hg : Obj.getOwn (monthlyDataOf (fun x => x)
          (Object.values (groupByCategoryAndMonth H ps))) month with
      | none => rw [hg] at hx; cases hx
      | some inner =>
        rw [hg] at hx
        obtain ⟨a, b, c⟩ := monthlyDataOf_entries _ month inner (getOwn_mem _ _ _ hg) x hx
        refine ⟨?_, x.2, a, b, c, rfl⟩
        show x.1 ≠ "name"
        rw [← c]
        exact hgroups x.2 a

/-! ## The claims -/

/-- C1: on the three records of the specification's example, which carry the
field `Category`, the chart functions read the field `category` and find
none: the groups are keyed `Uncategorized-January 2024` (30, 2) and
`Uncategorized-February 2024` (15, 1), the sales rows hold `Uncategorized`,
and the tally is the single row `Unknown Category` with value 3. -/
theorem example_read_through_lowercase_category :
    groupByCategoryAndMonth sampleHost exampleProducts =
        [("Uncategorized-January 2024", Group.mk "Uncategorized" "January 2024" 30 2),
         ("Uncategorized-February 2024", Group.mk "Uncategorized" "February 2024" 15 1)]
    ∧ prepareBarChartData (groupByCategoryAndMonth sampleHost exampleProducts) =
        [[("name", Cell.str "January 2024"), ("Uncategorized", Cell.num 30)],
         [("name", Cell.str "February 2024"), ("Uncategorized", Cell.num 15)]]
    ∧ preparePieChartData exampleProducts = [("Unknown Category", Tally.count 3)] := by
  decide

/-- The example with the lower-case field: when the three records carry their
category under the name `category`, the outputs are the ones the example
gives. -/
theorem example_with_category_field :
    groupByCategoryAndMonth sampleHost exampleProductsLowercase =
        [("Toys-January 2024", Group.mk "Toys" "January 2024" 30 2),
         ("Books-February 2024", Group.mk "Books" "February 2024" 15 1)]
    ∧ prepareBarChartData (groupByCategoryAndMonth sampleHost exampleProductsLowercase) =
        [[("name", Cell.str "January 2024"), ("Toys", Cell.num 30)],
         [("name", Cell.str "February 2024"), ("Books", Cell.num 15)]]
    ∧ preparePieChartData exampleProductsLowercase =
        [("Toys", Tally.count 2), ("Books", Tally.count 1)] := by
  decide

/-- C2, as stated, fails: a record whose sale date does not parse is still
grouped (under the month `Invalid Date`), so the groups' totals exceed the
totals over the records with a parseable date; and with the prices `0.1` and
`0.2` in one group the group's total is the rounded sum, which is not the sum
of the two prices. Sums are taken over the units `2^-1074` of the numbers. -/
theorem totals_over_parseable_fails :
    (¬ (((groupByCategoryAndMonth sampleHost badDateProducts).map
              (fun e => e.2.totalSales.units)).sum
            = ((badDateProducts.filter (parseable sampleHost)).map
                (fun p => p.Price.units)).sum
          ∧ ((groupByCategoryAndMonth sampleHost badDateProducts).map
                (fun e => e.2.totalItems)).sum
            = (badDateProducts.filter (parseable sampleHost)).length))
      ∧ ¬ (((groupByCategoryAndMonth sampleHost decimalProducts).map
              (fun e => e.2.totalSales.units)).sum
            = ((decimalProducts.filter (parseable sampleHost)).map
                (fun p => p.Price.units)).sum
          ∧ ((groupByCategoryAndMonth sampleHost decimalProducts).map
                (fun e => e.2.totalItems)).sum
            = (decimalProducts.filter (parseable sampleHost)).length) := by
  decide

/-- C2, amended: for every product list with exact prices (finite multiples of
one power of two whose absolute values sum to at most `2^53` times it, so that
no addition of the reducer rounds), every group's `totalSales` is finite, the
sum of `totalSales` over all groups equals the sum of `Price` over all records
of the list, and the sum of `totalItems` equals the number of records, whether
or not their sale dates parse. -/
theorem totals_over_all_records (H : Host) (k : Nat) (products : List Product)
    (hexact : ExactPrices k products) :
    (∀ e ∈ groupByCategoryAndMonth H products, e.2.totalSales.isFinite = true)
      ∧ ((groupByCategoryAndMonth H products).map (fun e => e.2.totalSales.units)).sum
        = (products.map (fun p => p.Price.units)).sum
      ∧ ((groupByCategoryAndMonth H products).map (fun e => e.2.totalItems)).sum
        = products.length := by
  refine ⟨?_, sum_sales_groupBy H k products hexact, sum_items_groupBy H products⟩
  rintro ⟨key, g⟩ he
  have hg := getOwn_of_mem _ (nodup_names_groupBy H products) key g he
  show g.totalSales.isFinite = true
  rw [totalSales_exact H k products hexact key g hg]
  rfl

/-- C2, amended, at a concrete list with integer prices. -/
theorem totals_over_all_records_witness :
    ExactPrices 1074 [kite, atlas, kite]
      ∧ (∀ e ∈ groupByCategoryAndMonth sampleHost [kite, atlas, kite],
          e.2.totalSales.isFinite = true)
      ∧ ((groupByCategoryAndMonth sampleHost [kite, atlas, kite]).map
            (fun e => e.2.totalSales.units)).sum
        = ([kite, atlas, kite].map (fun p => p.Price.units)).sum
      ∧ ((groupByCategoryAndMonth sampleHost [kite, atlas, kite]).map
            (fun e => e.2.totalItems)).sum
        = [kite, atlas, kite].length :=
  ⟨by decide, totals_over_all_records sampleHost 1074 [kite, atlas, kite] (by decide)⟩

/-- Beyond 53 bits the order of the records matters: the integer prices
`2^53`, `1`, `1` of one group add up to `2^53`, and in the order `1`, `1`,
`2^53` to `2^53 + 2`. -/
theorem rounding_depends_on_order :
    Obj.getOwn (groupByCategoryAndMonth sampleHost largeProducts) "Toys-March 2024"
        = some (Group.mk "Toys" "March 2024" (Num.ofInt ((2 ^ 53 : Nat) : Int)) 3)
      ∧ Obj.getOwn (groupByCategoryAndMonth sampleHost largeProducts.reverse)
          "Toys-March 2024"
        = some (Group.mk "Toys" "March 2024" (Num.ofInt ((2 ^ 53 + 2 : Nat) : Int)) 3) := by
  decide

/-- C7: on the empty product list the grouping is the empty mapping, both
pivots of it and the tally are the empty sequence, and `applyFilters` yields
the empty list for every search text, category and sold status. -/
theorem empty_list_outputs (H : Host) :
    groupByCategoryAndMonth H [] = []
      ∧ prepareBarChartData (groupByCategoryAndMonth H []) = []
      ∧ prepareLineChartData (groupByCategoryAndMonth H []) = []
      ∧ preparePieChartData [] = []
      ∧ ∀ (searchText selectedCategory : String) (soldStatus : Option Bool),
          applyFilters H [] searchText selectedCategory soldStatus = some [] := by
  refine ⟨rfl, rfl, rfl, rfl, ?_⟩
  intro s c st
  unfold applyFilters
  cases st <;> by_cases hs : s = "" <;> by_cases hc : c = "" <;>
    simp [hs, hc, filterByTitle]

/-- C8, as stated, fails: the integer prices `2^53`, `1`, `1` are exact
numbers, yet the group they are filed under has `totalSales` `2^53` on this
list and `2^53 + 2` on the reversed list, because the running sum rounds. -/
theorem grouping_differs_on_reordering :
    largeProducts.reverse.Perm largeProducts
      ∧ ¬ (∀ key, Obj.getOwn (groupByCategoryAndMonth sampleHost largeProducts.reverse) key
            = Obj.getOwn (groupByCategoryAndMonth sampleHost largeProducts) key) :=
  ⟨List.reverse_perm _, fun h => absurd (h "Toys-March 2024") (by decide)⟩

/-- C8, amended: for a product list whose prices are finite multiples of one
power of two with absolute values summing to at most `2^53` times it (so that
no addition of the reducer rounds), permuting the list leaves the set of
groups unchanged: the entries (key, group) of the result are a permutation of
the entries on the original list, and every key holds the same category,
month, totalSales and totalItems. -/
theorem grouping_of_permutation (H : Host) (k : Nat) (products permuted : List Product)
    (hexact : ExactPrices k products) (h : products.Perm permuted) :
    (groupByCategoryAndMonth H permuted).Perm (groupByCategoryAndMonth H products)
      ∧ ∀ key, Obj.getOwn (groupByCategoryAndMonth H permuted) key
          = Obj.getOwn (groupByCategoryAndMonth H products) key := by
  have hk : ∀ key, Obj.getOwn (groupByCategoryAndMonth H permuted) key
      = Obj.getOwn (groupByCategoryAndMonth H products) key := by
    intro key
    rw [getOwn_groupBy, getOwn_groupBy]
    exact (groupOf_perm H k key products permuted hexact h).symm
  refine ⟨?_, hk⟩
  have hn1 := nodup_names_groupBy H permuted
  have hn2 := nodup_names_groupBy H products
  rw [List.perm_ext_iff_of_nodup (List.Nodup.of_map _ hn1) (List.Nodup.of_map _ hn2)]
  rintro ⟨key, g⟩
  rw [mem_iff_getOwn _ hn1, mem_iff_getOwn _ hn2, hk]

/-- C8, amended, at a concrete list with integer prices and its reversal. -/
theorem grouping_of_permutation_witness :
    ExactPrices 1074 [kite, atlas]
      ∧ [kite, atlas].Perm [atlas, kite]
      ∧ (groupByCategoryAndMonth sampleHost [atlas, kite]).Perm
          (groupByCategoryAndMonth sampleHost [kite, atlas])
      ∧ ∀ key, Obj.getOwn (groupByCategoryAndMonth sampleHost [atlas, kite]) key
          = Obj.getOwn (groupByCategoryAndMonth sampleHost [kite, atlas]) key :=
  ⟨by decide, List.Perm.swap _ _ _,
    grouping_of_permutation sampleHost 1074 [kite, atlas] [atlas, kite] (by decide)
      (List.Perm.swap _ _ _)⟩

/-- C3: when every record has a text `Title`, the list `applyFilters` stores
is the raw list filtered, in original order, by the conjunction of the supplied
criteria. In particular, with no criterion supplied it is the raw list, and
with only a category supplied every record of it has that category. -/
theorem applyFilters_is_filter (H : Host) (products : List Product)
    (searchText selectedCategory : String) (soldStatus : Option Bool)
    (hT : ∀ p ∈ products, p.Title.isSome = true) :
    applyFilters H products searchText selectedCategory soldStatus
        = some (products.filter (satisfiesCriteria H searchText selectedCategory soldStatus))
      ∧ applyFilters H products "" "" none = some products
      ∧ ∀ C : String, C ≠ "" →
          ∃ l, applyFilters H products "" C none = some l ∧ l.Sublist products
            ∧ ∀ p ∈ l, p.Category = some C := by
  refine ⟨applyFilters_eq H products searchText selectedCategory soldStatus hT, ?_, ?_⟩
  · rw [applyFilters_no_search, satisfiesCriteria_eq]
    simp
  · intro C hC
    refine ⟨_, applyFilters_no_search H products C none, List.filter_sublist _, ?_⟩
    intro p hp
    have h := (List.mem_filter.1 hp).2
    rw [satisfiesCriteria_eq] at h
    simpa [hC] using h

/-- C3 at a concrete list and concrete criteria. -/
theorem applyFilters_is_filter_witness :
    (∀ p ∈ [kite, atlas], p.Title.isSome = true)
      ∧ applyFilters sampleHost [kite, atlas] "KITE" "Toys" (some true)
          = some ([kite, atlas].filter (satisfiesCriteria sampleHost "KITE" "Toys" (some true)))
      ∧ [kite, atlas].filter (satisfiesCriteria sampleHost "KITE" "Toys" (some true)) = [kite] :=
  ⟨by decide,
    (applyFilters_is_filter sampleHost [kite, atlas] "KITE" "Toys" (some true) (by decide)).1,
    by decide⟩

/-- C6: when every record's `Sold` is a boolean, filtering by sold status
`true` and by sold status `false` (no search text, no category) partitions the
list: the two results together are a rearrangement of the list, and every
record of the list is in exactly one of them. -/
theorem sold_status_partitions (H : Host) (products : List Product)
    (hS : ∀ p ∈ products, p.Sold.isSome = true) :
    ∃ sold unsold : List Product,
      applyFilters H products "" "" (some true) = some sold
        ∧ applyFilters H products "" "" (some false) = some unsold
        ∧ (sold ++ unsold).Perm products
        ∧ ∀ p ∈ products, (p ∈ sold ∧ p ∉ unsold) ∨ (p ∉ sold ∧ p ∈ unsold) := by
  have hsat : ∀ b : Bool, satisfiesCriteria H "" "" (some b) = fun p => p.Sold == some b := by
    intro b
    rw [satisfiesCriteria_eq]
    funext p
    simp
  have hneg : products.filter (fun p => p.Sold == some false)
      = products.filter (fun p => !(p.Sold == some true)) := by
    apply List.filter_congr
    intro p hp
    have := hS p hp
    cases hsold : p.Sold with
    | none => rw [hsold] at this; cases this
    | some b => cases b <;> rfl
  refine ⟨products.filter (fun p => p.Sold == some true),
    products.filter (fun p => p.Sold == some false), ?_, ?_, ?_, ?_⟩
  · rw [applyFilters_no_search, hsat]
  · rw [applyFilters_no_search, hsat]
  · rw [hneg]
    exact List.filter_append_perm _ _
  · intro p hp
    have := hS p hp
    cases hsold : p.Sold with
    | none => rw [hsold] at this; cases this
    | some b =>
      cases b
      · right
        simp [List.mem_filter, hp, hsold]
      · left
        simp [List.mem_filter, hp, hsold]

/-- C6 at a concrete list. -/
theorem sold_status_partitions_witness :
    (∀ p ∈ [kite, atlas, kite], p.Sold.isSome = true)
      ∧ ∃ sold unsold : List Product,
        applyFilters sampleHost [kite, atlas, kite] "" "" (some true) = some sold
          ∧ applyFilters sampleHost [kite, atlas, kite] "" "" (some false) = some unsold
          ∧ (sold ++ unsold).Perm [kite, atlas, kite]
          ∧ ∀ p ∈ [kite, atlas, kite], (p ∈ sold ∧ p ∉ unsold) ∨ (p ∉ sold ∧ p ∈ unsold) :=
  ⟨by decide, sold_status_partitions sampleHost [kite, atlas, kite] (by decide)⟩

/-- C4: on a record whose category is the text `__proto__` the code returns no
row at all, and on two records of category `constructor` the row holds a text
in place of the count 2, where the claim (and the comment of the reducer,
which counts the occurrences of each category) asks for rows whose values sum
to the length of the list. -/
theorem tally_at_inherited_names :
    preparePieChartData protoProducts = []
      ∧ protoProducts.length = 1
      ∧ preparePieChartData constructorProducts = [("constructor", Tally.text)]
      ∧ constructorProducts.length = 2 := by
  decide

/-- The tally of a record whose category is the text `__proto__` does not have
the properties of a count: the record is counted in no row (the assignment
reaches the inherited setter), so the values of the rows do not sum to the
length of the list and the category has no row. -/
theorem tally_misses_proto_category :
    ¬ ((∃ ns : List Nat, (preparePieChartData protoProducts).map Prod.snd = ns.map Tally.count
            ∧ ns.sum = protoProducts.length)
        ∧ ((preparePieChartData protoProducts).map Prod.fst).Nodup
        ∧ (∀ c, c ∈ (preparePieChartData protoProducts).map Prod.fst
            ↔ ∃ p ∈ protoProducts, pieCategory p = c)
        ∧ ∀ r ∈ preparePieChartData protoProducts,
            r.2 = Tally.count (protoProducts.countP (fun p => pieCategory p == r.1))) := by
  rintro ⟨⟨ns, h1, h2⟩, -⟩
  have hrows : preparePieChartData protoProducts = [] := by decide
  rw [hrows] at h1
  have hns : ns = [] := by
    cases ns with
    | nil => rfl
    | cons n rest => simp at h1
  rw [hns] at h2
  revert h2
  decide

/-- Where the tally is right: for every product list in which no record's
category (after defaulting) is the name of a property inherited from
`Object.prototype`
(`__proto__`, `constructor`, `toString`, ...), the values of the rows are
numbers that sum to the length of the list, no two rows have the same name,
the names are exactly the categories of the records, and each row's value is
the number of records of its category. -/
theorem tally_counts_categories (products : List Product)
    (hc : ∀ p ∈ products, pieCategory p ∉ inheritedNames) :
    (∃ ns : List Nat, (preparePieChartData products).map Prod.snd = ns.map Tally.count
          ∧ ns.sum = products.length)
      ∧ ((preparePieChartData products).map Prod.fst).Nodup
      ∧ (∀ c, c ∈ (preparePieChartData products).map Prod.fst
          ↔ ∃ p ∈ products, pieCategory p = c)
      ∧ ∀ r ∈ preparePieChartData products,
          r.2 = Tally.count (products.countP (fun p => pieCategory p == r.1)) := by
  have hperm : (preparePieChartData products).Perm (categoryCounts products) := by
    rw [preparePieChartData_eq]
    exact ownEntries_perm _
  have hrow : ∀ r ∈ preparePieChartData products,
      r.2 = Tally.count (products.countP (fun p => pieCategory p == r.1)) := by
    rintro ⟨c, t⟩ hr
    have hmem : (c, t) ∈ categoryCounts products := hperm.mem_iff.1 hr
    have hg := getOwn_of_mem _ (nodup_names_categoryCounts products) c t hmem
    rw [getOwn_categoryCounts] at hg
    obtain ⟨-, ⟨p, hp, hpc⟩, hcount⟩ := tallyOf_eq_some c products t hg
    exact hcount (hpc ▸ hc p hp)
  refine ⟨⟨(preparePieChartData products).map (fun r => r.2.value), ?_, ?_⟩, ?_, ?_, hrow⟩
  · rw [List.map_map]
    apply List.map_congr_left
    intro r hr
    simp [hrow r hr, Tally.value]
  · rw [(hperm.map (fun r => r.2.value)).sum_eq]
    exact value_sum_categoryCounts products hc
  · exact ((hperm.map Prod.fst).nodup_iff).2 (nodup_names_categoryCounts products)
  · intro c
    rw [(hperm.map Prod.fst).mem_iff]
    have hn := names_categoryCounts products
    unfold Obj.names at hn
    rw [hn, mem_firstOccurrences, List.mem_filter, List.mem_map]
    constructor
    · rintro ⟨h, -⟩
      exact h
    · rintro ⟨p, hp, rfl⟩
      refine ⟨⟨p, hp, rfl⟩, ?_⟩
      have : pieCategory p ≠ "__proto__" := fun h => hc p hp (h ▸ proto_mem_inheritedNames)
      simpa using this

/-- The tally at a concrete list without inherited names. -/
theorem tally_counts_categories_witness :
    (∀ p ∈ [kite, atlas, kite], pieCategory p ∉ inheritedNames)
      ∧ (∃ ns : List Nat, (preparePieChartData [kite, atlas, kite]).map Prod.snd
            = ns.map Tally.count ∧ ns.sum = [kite, atlas, kite].length)
      ∧ ((preparePieChartData [kite, atlas, kite]).map Prod.fst).Nodup
      ∧ (∀ c, c ∈ (preparePieChartData [kite, atlas, kite]).map Prod.fst
          ↔ ∃ p ∈ [kite, atlas, kite], pieCategory p = c)
      ∧ ∀ r ∈ preparePieChartData [kite, atlas, kite],
          r.2 = Tally.count ([kite, atlas, kite].countP (fun p => pieCategory p == r.1)) :=
  ⟨by decide, tally_counts_categories [kite, atlas, kite] (by decide)⟩

/-- C10, as stated, fails: when category `b` first occurs before category `1`,
the row of `1` still comes first, because a name that is an array index is
enumerated before the other names. -/
theorem tally_order_fails_for_index_category :
    (preparePieChartData indexProducts).map Prod.fst
      ≠ firstOccurrences (indexProducts.map pieCategory) := by
  decide

/-- C10, amended: for every product list, the names of the rows of
`preparePieChartData` are first the categories that are array indices
(canonical decimal numbers below `2^32 - 1`), in ascending numeric order, and
then the other categories except `__proto__`, in the order of their first
occurrence in the list. -/
theorem tally_order (products : List Product) :
    ∃ idx : List String,
      (preparePieChartData products).map Prod.fst
          = idx ++ (firstOccurrences (products.map pieCategory)).filter
              (fun c => !isArrayIndex c && c != "__proto__")
        ∧ (∀ c ∈ idx, isArrayIndex c = true)
        ∧ idx.Pairwise (fun a b => (arrayIndex? a).getD 0 ≤ (arrayIndex? b).getD 0)
        ∧ idx.Perm ((firstOccurrences (products.map pieCategory)).filter isArrayIndex) := by
  obtain ⟨idx, h1, h2, h3, h4⟩ := keys_shape (categoryCounts products)
  have hkeys : (preparePieChartData products).map Prod.fst
      = Object.keys (categoryCounts products) := by
    rw [preparePieChartData_eq]
    rfl
  rw [names_categoryCounts, firstOccurrences_filter] at h1 h4
  refine ⟨idx, ?_, h2, h3, ?_⟩
  · rw [hkeys, h1, List.filter_filter]
  · refine h4.trans (List.Perm.of_eq ?_)
    rw [List.filter_filter]
    apply List.filter_congr
    intro c _
    by_cases hp : c = "__proto__"
    · subst hp
      decide
    · simp [hp]

/-- C9, as stated, fails: for a group whose category is the text `name`, the
bar row is `{ name: 7 }` and the line row `{ name: 1 }`, so the two rows do not
hold the same month label under `name`. -/
theorem line_rows_differ_for_name_category :
    ¬ List.Forall₂
        (RowsMirror (Object.values (groupByCategoryAndMonth sampleHost nameProducts)))
        (prepareBarChartData (groupByCategoryAndMonth sampleHost nameProducts))
        (prepareLineChartData (groupByCategoryAndMonth sampleHost nameProducts)) := by
  intro h
  have hbar : prepareBarChartData (groupByCategoryAndMonth sampleHost nameProducts)
      = [[("name", Cell.num 7)]] := by decide
  have hline : prepareLineChartData (groupByCategoryAndMonth sampleHost nameProducts)
      = [[("name", Cell.num 1)]] := by decide
  rw [hbar, hline] at h
  obtain ⟨month, h1, -⟩ := (List.forall₂_cons.1 h).1
  have hget : Obj.getOwn [("name", Cell.num 7)] "name" = some (Cell.num 7) := by
    simp [Obj.getOwn]
  rw [hget] at h1
  cases h1

/-- C9, amended: for every product list in which no record's category (after
defaulting) is the text `name`, `prepareLineChartData` returns the same
sequence of rows as `prepareBarChartData`: row by row both hold the same month
label under `name`, entry by entry the names agree, and every entry other than
`name` holds the `totalItems` of the group (of that month and category) whose
`totalSales` the sales pivot holds. -/
theorem line_rows_mirror_bar_rows (H : Host) (products : List Product)
    (hname : ∀ p ∈ products, groupCategory p ≠ "name") :
    List.Forall₂
      (RowsMirror (Object.values (groupByCategoryAndMonth H products)))
      (prepareBarChartData (groupByCategoryAndMonth H products))
      (prepareLineChartData (groupByCategoryAndMonth H products)) := by
  have hbar : prepareBarChartData (groupByCategoryAndMonth H products)
      = (pivotRows (fun x => x) Sum.inl Sum.inr (groupByCategoryAndMonth H products)).map
          (Obj.mapValues salesCell) :=
    pivotRows_mapValues (fun x : Group => x.totalSales) salesCell (fun x => x) Sum.inl Sum.inr
      Cell.str Cell.num (fun _ => rfl) (fun _ => rfl) _
  have hline : prepareLineChartData (groupByCategoryAndMonth H products)
      = (pivotRows (fun x => x) Sum.inl Sum.inr (groupByCategoryAndMonth H products)).map
          (Obj.mapValues itemsCell) :=
    pivotRows_mapValues (fun x : Group => Num.ofInt x.totalItems) itemsCell (fun x => x)
      Sum.inl Sum.inr Cell.str Cell.num (fun _ => rfl) (fun _ => rfl) _
  rw [hbar, hline, List.forall₂_map_left_iff, List.forall₂_map_right_iff, List.forall₂_same]
  intro row hrow
  obtain ⟨month, hget, hmonth⟩ := pivotRows_row H products hname row hrow
  refine ⟨month, ?_, ?_, ?_⟩
  · rw [getOwn_mapValues, hget]
    rfl
  · rw [getOwn_mapValues, hget]
    rfl
  · unfold Obj.mapValues
    rw [List.forall₂_map_left_iff, List.forall₂_map_right_iff, List.forall₂_same]
    intro e he
    refine ⟨rfl, ?_⟩
    rcases hmonth e he with h1 | ⟨hne, x, hx, hm, hc, hv⟩
    · left
      rw [h1]
      exact ⟨rfl, rfl, rfl⟩
    · right
      refine ⟨hne, x, hx, hm, hc, ?_, ?_⟩
      · rw [hv]
        rfl
      · rw [hv]
        rfl

/-- C9, amended, at a concrete list. -/
theorem line_rows_mirror_bar_rows_witness :
    (∀ p ∈ [kite, atlas, kite], groupCategory p ≠ "name")
      ∧ List.Forall₂
        (RowsMirror (Object.values (groupByCategoryAndMonth sampleHost [kite, atlas, kite])))
        (prepareBarChartData (groupByCategoryAndMonth sampleHost [kite, atlas, kite]))
        (prepareLineChartData (groupByCategoryAndMonth sampleHost [kite, atlas, kite])) :=
  ⟨by decide, line_rows_mirror_bar_rows sampleHost [kite, atlas, kite] (by decide)⟩

/-- C5, as stated, fails: for a group whose category is the text `name`, the
spread of the categories overwrites the month label held under `name`; and
for a group whose category is the text `__proto__` the row has no entry, since
the assignment reaches the inherited setter. -/
theorem bar_rows_fail_for_name_category :
    (¬ List.Forall₂
        (fun month row => Obj.getOwn row "name" = some (Cell.str month) ∧
          ∀ c, c ≠ "name" → ∀ v, Obj.getOwn row c = some v ↔
            ∃ g ∈ Object.values (groupByCategoryAndMonth sampleHost nameProducts),
              g.month = month ∧ g.category = c ∧ v = Cell.num g.totalSales)
        (firstOccurrences
          ((Object.values (groupByCategoryAndMonth sampleHost nameProducts)).map
            (fun g => g.month)))
        (prepareBarChartData (groupByCategoryAndMonth sampleHost nameProducts)))
    ∧ ¬ List.Forall₂
        (fun month row => Obj.getOwn row "name" = some (Cell.str month) ∧
          ∀ c, c ≠ "name" → ∀ v, Obj.getOwn row c = some v ↔
            ∃ g ∈ Object.values (groupByCategoryAndMonth sampleHost protoProducts),
              g.month = month ∧ g.category = c ∧ v = Cell.num g.totalSales)
        (firstOccurrences
          ((Object.values (groupByCategoryAndMonth sampleHost protoProducts)).map
            (fun g => g.month)))
        (prepareBarChartData (groupByCategoryAndMonth sampleHost protoProducts)) := by
  constructor
  · intro h
    have hrows : prepareBarChartData (groupByCategoryAndMonth sampleHost nameProducts)
        = [[("name", Cell.num 7)]] := by decide
    have hmonths : firstOccurrences
        ((Object.values (groupByCategoryAndMonth sampleHost nameProducts)).map
          (fun g => g.month)) = ["March 2024"] := by decide
    rw [hrows, hmonths] at h
    have h1 := (List.forall₂_cons.1 h).1.1
    revert h1
    decide
  · intro h
    have hrows : prepareBarChartData (groupByCategoryAndMonth sampleHost protoProducts)
        = [[("name", Cell.str "March 2024")]] := by decide
    have hmonths : firstOccurrences
        ((Object.values (groupByCategoryAndMonth sampleHost protoProducts)).map
          (fun g => g.month)) = ["March 2024"] := by decide
    have hvalues : Object.values (groupByCategoryAndMonth sampleHost protoProducts)
        = [Group.mk "__proto__" "March 2024" 8 1] := by decide
    rw [hrows, hmonths, hvalues] at h
    have h1 := ((List.forall₂_cons.1 h).1.2 "__proto__" (by decide) (Cell.num 8)).2
      ⟨_, List.mem_cons_self _ _, rfl, rfl, rfl⟩
    revert h1
    decide

/-- C5, amended: for every product list in which no record's category (after
defaulting) is the text `name` or the text `__proto__`, the rows of the sales
pivot of the grouping correspond one to one, in order, to the distinct month
labels of the groups in the order of their first occurrence; each row holds its
month label under `name`, and any other name `c` holds a value in the row
exactly when a group of that month has category `c`, the value being that
group's `totalSales`. -/
theorem bar_rows_by_month (H : Host) (products : List Product)
    (hcat : ∀ p ∈ products, groupCategory p ≠ "name" ∧ groupCategory p ≠ "__proto__") :
    List.Forall₂
      (fun month row => Obj.getOwn row "name" = some (Cell.str month) ∧
        ∀ c, c ≠ "name" → ∀ v, Obj.getOwn row c = some v ↔
          ∃ g ∈ Object.values (groupByCategoryAndMonth H products),
            g.month = month ∧ g.category = c ∧ v = Cell.num g.totalSales)
      (firstOccurrences
        ((Object.values (groupByCategoryAndMonth H products)).map (fun g => g.month)))
      (prepareBarChartData (groupByCategoryAndMonth H products)) := by
  have hgroups : ∀ g ∈ Object.values (groupByCategoryAndMonth H products),
      g.category ≠ "name" ∧ g.category ≠ "__proto__" := by
    intro g hg
    rw [values_groupBy] at hg
    obtain ⟨⟨k, g'⟩, hmem, rfl⟩ := List.mem_map.1 hg
    obtain ⟨p, hp, -, hc, -⟩ := group_of_mem H products k g' hmem
    show g'.category ≠ "name" ∧ g'.category ≠ "__proto__"
    rw [hc]
    exact hcat p hp
  have hcell := fun m c w => cellOf_eq_some_iff (fun x : Group => x.totalSales) m c
    (Object.values (groupByCategoryAndMonth H products)) (group_pairs_distinct H products)
    (fun g hg => (hgroups g hg).2) w
  rw [prepareBarChartData_eq]
  unfold pivotRows
  rw [keys_monthlyDataOf, List.forall₂_map_right_iff, List.forall₂_same]
  intro month _
  have hn := nodup_inner (fun x : Group => x.totalSales)
    (Object.values (groupByCategoryAndMonth H products)) month
  constructor
  · rw [getOwn_spreadWith _ _ _ _ hn, getOwn_monthlyDataOf]
    cases hc : cellOf (fun x : Group => x.totalSales) month "name"
        (Object.values (groupByCategoryAndMonth H products)) with
    | none => simp
    | some w =>
      obtain ⟨g, hg, -, hname, -⟩ := (hcell month "name" w).1 hc
      exact absurd hname (hgroups g hg).1
  · intro c hc v
    rw [getOwn_spreadWith _ _ _ _ hn, getOwn_monthlyDataOf]
    cases hcl : cellOf (fun x : Group => x.totalSales) month c
        (Object.values (groupByCategoryAndMonth H products)) with
    | none =>
      simp only [hc, if_false]
      constructor
      · intro h
        cases h
      · rintro ⟨g, hg, hm, hcg, -⟩
        have := (hcell month c g.totalSales).2 ⟨g, hg, hm, hcg, rfl⟩
        rw [hcl] at this
        cases this
    | some w =>
      simp only [Option.some.injEq]
      obtain ⟨g, hg, hm, hcg, hw⟩ := (hcell month c w).1 hcl
      constructor
      · intro h
        exact ⟨g, hg, hm, hcg, by rw [← h, hw]⟩
      · rintro ⟨g', hg', hm', hcg', rfl⟩
        have := (hcell month c g'.totalSales).2 ⟨g', hg', hm', hcg', rfl⟩
        rw [hcl] at this
        cases this
        rfl

/-- C5, amended, at a concrete list. -/
theorem bar_rows_by_month_witness :
    (∀ p ∈ [kite, atlas, kite],
        groupCategory p ≠ "name" ∧ groupCategory p ≠ "__proto__")
      ∧ List.Forall₂
        (fun month row => Obj.getOwn row "name" = some (Cell.str month) ∧
          ∀ c, c ≠ "name" → ∀ v, Obj.getOwn row c = some v ↔
            ∃ g ∈ Object.values (groupByCategoryAndMonth sampleHost [kite, atlas, kite]),
              g.month = month ∧ g.category = c ∧ v = Cell.num g.totalSales)
        (firstOccurrences
          ((Object.values (groupByCategoryAndMonth sampleHost [kite, atlas, kite])).map
            (fun g => g.month)))
        (prepareBarChartData (groupByCategoryAndMonth sampleHost [kite, atlas, kite])) :=
  ⟨by decide, bar_rows_by_month sampleHost [kite, atlas, kite] (by decide)⟩

/-- C11: on a record whose non-empty category is the text `__proto__`,
`groupByCategoryAndMonth` files the record under that category, and
`preparePieChartData`, which should count it under the same category, returns
no row. -/
theorem proto_category_grouped_but_not_tallied :
    groupByCategoryAndMonth sampleHost protoProducts
        = [("__proto__-March 2024", Group.mk "__proto__" "March 2024" 8 1)]
      ∧ preparePieChartData protoProducts = [] := by
  decide

/-- The tally files a category `__proto__` under no row: a record whose
non-empty category is the text `__proto__` is grouped under that category by
`groupByCategoryAndMonth`, but `preparePieChartData` files it under no row at
all. -/
theorem proto_category_has_no_tally_row :
    ¬ (∀ p ∈ protoProducts, ∀ c, p.category = some c → c ≠ "" →
        (∃ g, Obj.getOwn (groupByCategoryAndMonth sampleHost protoProducts)
            (c ++ "-" ++ sampleHost.monthLabel p.DateOfSale) = some g ∧ g.category = c)
        ∧ c ∈ (preparePieChartData protoProducts).map Prod.fst) := by
  intro h
  have hrows : preparePieChartData protoProducts = [] := by decide
  have h1 := (h _ (List.mem_cons_self _ _) "__proto__" rfl (by decide)).2
  rw [hrows] at h1
  cases h1

/-- The two sentinels, and where a non-empty category is kept: a record whose
category is absent or the empty string is
accumulated by `groupByCategoryAndMonth` into the group of its month whose
category is `Uncategorized` and counted by `preparePieChartData` in the row
`Unknown Category`, a different sentinel; a record with a non-empty category
is accumulated into the group of its month with that category unchanged, and
is filed by `preparePieChartData` under a row of that name unless the category
is the text `__proto__`, the value of the row being the number of records of
that category when the category is not the name of an inherited property. -/
theorem category_sentinels (H : Host) (products : List Product) (p : Product)
    (hp : p ∈ products) :
    ((p.category = none ∨ p.category = some "") →
        (∃ g, Obj.getOwn (groupByCategoryAndMonth H products)
              ("Uncategorized" ++ "-" ++ H.monthLabel p.DateOfSale) = some g
            ∧ g.category = "Uncategorized"
            ∧ g.totalItems
                = (recordsOf H ("Uncategorized" ++ "-" ++ H.monthLabel p.DateOfSale)
                    products).length
            ∧ p ∈ recordsOf H ("Uncategorized" ++ "-" ++ H.monthLabel p.DateOfSale) products)
          ∧ ("Unknown Category",
              Tally.count (products.countP (fun q => pieCategory q == "Unknown Category")))
              ∈ preparePieChartData products
          ∧ pieCategory p = "Unknown Category"
          ∧ "Uncategorized" ≠ "Unknown Category")
      ∧ ∀ c, p.category = some c → c ≠ "" →
          (∃ g, Obj.getOwn (groupByCategoryAndMonth H products)
                (c ++ "-" ++ H.monthLabel p.DateOfSale) = some g
              ∧ g.category = c
              ∧ g.totalItems
                  = (recordsOf H (c ++ "-" ++ H.monthLabel p.DateOfSale) products).length
              ∧ p ∈ recordsOf H (c ++ "-" ++ H.monthLabel p.DateOfSale) products)
            ∧ (c ≠ "__proto__" → c ∈ (preparePieChartData products).map Prod.fst)
            ∧ (c ∉ inheritedNames →
                (c, Tally.count (products.countP (fun q => pieCategory q == c)))
                  ∈ preparePieChartData products) := by
  obtain ⟨g, hg, hcat, -, -, hitems, hmem⟩ := group_at_key H products p hp
  have hkey : groupKey H p = groupCategory p ++ "-" ++ H.monthLabel p.DateOfSale := rfl
  rw [hkey] at hg hitems hmem
  constructor
  · intro habsent
    have hgc : groupCategory p = "Uncategorized" := orDefault_of_absent _ _ habsent
    have hpc : pieCategory p = "Unknown Category" := orDefault_of_absent _ _ habsent
    rw [hgc] at hg hcat hitems hmem
    refine ⟨⟨g, hg, hcat, hitems, hmem⟩, ?_, hpc, by decide⟩
    have := pie_row_of_mem products p hp (by rw [hpc]; decide)
    rw [hpc] at this
    exact this
  · intro c hc hne
    have hgc : groupCategory p = c := by
      unfold groupCategory
      rw [hc]
      exact orDefault_of_text c _ hne
    have hpc : pieCategory p = c := by
      unfold pieCategory
      rw [hc]
      exact orDefault_of_text c _ hne
    rw [hgc] at hg hcat hitems hmem
    refine ⟨⟨g, hg, hcat, hitems, hmem⟩, ?_, ?_⟩
    · intro hproto
      have := pie_name_of_mem products p hp (by rw [hpc]; exact hproto)
      rw [hpc] at this
      exact this
    · intro hinh
      have := pie_row_of_mem products p hp (by rw [hpc]; exact hinh)
      rw [hpc] at this
      exact this

/-- The sentinels at a concrete list and a record without category. -/
theorem category_sentinels_witness :
    plainBox ∈ [kite, plainBox]
      ∧ (∃ g, Obj.getOwn (groupByCategoryAndMonth sampleHost [kite, plainBox])
            "Uncategorized-March 2024" = some g ∧ g.category = "Uncategorized")
      ∧ ("Unknown Category", Tally.count 1) ∈ preparePieChartData [kite, plainBox] := by
  have h := (category_sentinels sampleHost [kite, plainBox] plainBox (by decide)).1
    (Or.inl rfl)
  refine ⟨by decide, ?_, ?_⟩
  · obtain ⟨g, hg, hc, -⟩ := h.1
    exact ⟨g, hg, hc⟩
  · exact h.2.1

/-- C12: for every product list, the first rows `salesData[0]` and
`itemsData[0]` exist exactly when the list is non-empty, and so does the render
of `ProductGraphs`, which derives its series from their keys; the state
`FetchProducts` is left in after a failed fetch holds the empty list, on which
the key derivation throws. -/
theorem first_rows_defined_iff_nonempty (H : Host) (products : List Product) :
    (((prepareBarChartData (groupByCategoryAndMonth H products))[0]?).isSome = true
        ↔ products ≠ [])
      ∧ (((prepareLineChartData (groupByCategoryAndMonth H products))[0]?).isSome = true
        ↔ products ≠ [])
      ∧ ((seriesOf (prepareBarChartData (groupByCategoryAndMonth H products))).isSome = true
        ↔ products ≠ [])
      ∧ ((seriesOf (prepareLineChartData (groupByCategoryAndMonth H products))).isSome = true
        ↔ products ≠ [])
      ∧ ((ProductGraphs H products).isSome = true ↔ products ≠ [])
      ∧ (fetchProducts FetchState.initial FetchOutcome.rejected).products = []
      ∧ (fetchProducts FetchState.initial FetchOutcome.rejected).loading = false
      ∧ (prepareBarChartData (groupByCategoryAndMonth H
            (fetchProducts FetchState.initial FetchOutcome.rejected).products))[0]? = none
      ∧ (prepareLineChartData (groupByCategoryAndMonth H
            (fetchProducts FetchState.initial FetchOutcome.rejected).products))[0]? = none
      ∧ ProductGraphs H (fetchProducts FetchState.initial FetchOutcome.rejected).products
          = none := by
  have hb := pivotRows_eq_nil (fun x : Group => x.totalSales) Cell.str Cell.num H products
  have hl := pivotRows_eq_nil (fun x : Group => Num.ofInt x.totalItems) Cell.str Cell.num H
    products
  rw [← prepareBarChartData_eq] at hb
  rw [← prepareLineChartData_eq] at hl
  refine ⟨?_, ?_, ?_, ?_, productGraphs_isSome_iff H products, rfl, rfl, rfl, rfl, rfl⟩
  · rw [first_isSome_iff, Ne, hb]
  · rw [first_isSome_iff, Ne, hl]
  · rw [seriesOf_isSome_iff, Ne, hb]
  · rw [seriesOf_isSome_iff, Ne, hl]

end Dashboard
